import Mathlib

/-!
Verification of the matrix engine in `src-tauri/src/lib.rs` (repository
`matrix_calc`).

The Rust code stores matrix entries as `f64`.  The embedding below models the
entries as exact rationals (`ℚ`): every arithmetic operation performed by the
code (`+`, `-`, `*`, `/`, `abs`, comparisons) is mirrored by the corresponding
exact operation.  This is the ideal-arithmetic reading of the algorithms; the
one claim that is specifically about non-finite `f64` values (the unguarded
zero pivot in Gaussian elimination) is treated with a dedicated value model
`FVal` that tracks finiteness, further below.

Rust `Vec<Vec<f64>>` is modelled as `List (List ℚ)`.  Rust indexing `v[i]`
panics when out of bounds; the embedding uses `List.getD _ _ 0` (respectively
`List.getD _ _ []`), which is exact on every index the code actually reads as
long as the matrix is well-formed (`Mat.WF` below: `data` has `rows` rows of
`cols` entries each, the invariant stated in the data model).  Theorems take
`Mat.WF` as a hypothesis where the access pattern relies on it.
-/

namespace MatrixCalc

/-- The `Matrix` struct of the source (named `Mat` here so that it does not
shadow Mathlib's `Matrix`, which is used to cross-check the determinant):
`rows`, `cols`, and row-major `data`. -/
structure Mat where
  rows : Nat
  cols : Nat
  data : List (List ℚ)
deriving DecidableEq

/-- Entry access `self.data[i][j]`, with default `0` out of bounds (the Rust
code never reads out of bounds on well-formed matrices). -/
def Mat.entry (m : Mat) (i j : Nat) : ℚ := (m.data.getD i []).getD j 0

/-- The data-model invariant: `data.length == rows` and every row has exactly
`cols` entries.  Every matrix built by `Matrix::new` or by parsing satisfies
it, and every operation preserves it. -/
def Mat.WF (m : Mat) : Prop :=
  m.data.length = m.rows ∧ ∀ r ∈ m.data, r.length = m.cols

instance (m : Mat) : Decidable m.WF := by
  unfold Mat.WF; infer_instance

/-- The error strings of `lib.rs`, abbreviated. -/
def notSquareMsg : String := "Determinant can only be calculated for square matrices"

def singularMsg : String := "Matrix is not invertible (determinant is 0)"

def gaussDimMsg : String := "Invalid matrix dimensions for Gaussian elimination"

def cramerDimMsg : String := "Invalid matrix dimensions for Cramer's rule"

def cramerSingularMsg : String := "System has no unique solution (determinant is 0)"

def mulDimMsg : String := "Matrices cannot be multiplied due to incompatible dimensions"

/-- The `(rows-1)×(cols-1)` submatrix that deletes row `i` and column `j`.
Both `determinant` (with `i = 0`) and `inverse` build it by copying every
entry whose row index is not `i` and column index is not `j`, preserving
order; on well-formed data that is exactly `eraseIdx` on the row list and on
each row. -/
def Mat.minor (m : Mat) (i j : Nat) : Mat :=
  ⟨m.rows - 1, m.cols - 1, (m.data.eraseIdx i).map (fun r => r.eraseIdx j)⟩

/-- The recursion of `Matrix::determinant`, driven by the row count (the
measure the Rust recursion shrinks): 1×1 and 2×2 base cases, then cofactor
expansion along row 0, accumulating `det += entry[0][j] * minorDet * sign`
for `j` in `0..cols`.  The `0` case is the empty cofactor loop: past the
square guard `cols = rows = 0`, so the loop body never runs and the
accumulator `0.0` is returned.  The recursive call in the source propagates
errors with `?`, but the minor of a square matrix is square (`rows-1 = cols-1`),
so that branch is dead and the recursion is embedded as a total `ℚ`-valued
function. -/
def detAux : Nat → Mat → ℚ
  | 0, _ => 0
  | 1, m => m.entry 0 0
  | 2, m => m.entry 0 0 * m.entry 1 1 - m.entry 0 1 * m.entry 1 0
  | n+3, m =>
      (List.range m.cols).foldl
        (fun det j =>
          det + m.entry 0 j * detAux (n+2) (m.minor 0 j) * (if j % 2 = 0 then 1 else -1))
        0

/-- The method `Matrix::determinant`: requires a square matrix, else
`Err(notSquareMsg)`. -/
def Mat.determinant (m : Mat) : Except String ℚ :=
  if m.rows ≠ m.cols then .error notSquareMsg
  else .ok (detAux m.rows m)

/-- The method `Matrix::transpose`: `transposed.data[j][i] = self.data[i][j]` over the
full index ranges. -/
def Mat.transpose (m : Mat) : Mat :=
  ⟨m.cols, m.rows,
    (List.range m.cols).map (fun j => (List.range m.rows).map (fun i => m.entry i j))⟩

/-- The impl `Mul<f64> for Matrix`: every entry multiplied by the scalar. -/
def Mat.scalarMul (m : Mat) (k : ℚ) : Mat :=
  ⟨m.rows, m.cols,
    (List.range m.rows).map (fun i => (List.range m.cols).map (fun j => m.entry i j * k))⟩

/-- The impl `Mul for Matrix`: dimension guard `self.cols == other.rows`, then the
triple loop `result[i][j] += self.data[i][k] * other.data[k][j]` starting from
the zero matrix, i.e. a left fold over `k` starting at `0`. -/
def Mat.matMul (a b : Mat) : Except String Mat :=
  if a.cols ≠ b.rows then .error mulDimMsg
  else .ok ⟨a.rows, b.cols,
    (List.range a.rows).map (fun i =>
      (List.range b.cols).map (fun j =>
        (List.range a.cols).foldl (fun acc k => acc + a.entry i k * b.entry k j) 0))⟩

/-- The method `Matrix::inverse`: `let det = self.determinant()?` (the `?` propagation is
the `match` on the result), the exact-zero singularity guard, the 1×1 short
cut, then the cofactor matrix `adjugate[i][j] = minor(i,j).determinant()? *
sign(i+j)` built row by row (`mapM`/`Except.map` mirror the loops with `?`),
transposed and scaled by `1/det`. -/
def Mat.inverse (m : Mat) : Except String Mat :=
  match m.determinant with
  | .error e => .error e
  | .ok det =>
    if det = 0 then .error singularMsg
    else if m.rows = 1 then .ok ⟨1, 1, [[1/det]]⟩
    else
      match (List.range m.rows).mapM (fun i =>
        (List.range m.cols).mapM (fun j =>
          ((m.minor i j).determinant).map
            (fun d => d * (if (i + j) % 2 = 0 then 1 else -1)))) with
      | .error e => .error e
      | .ok adjData => .ok ((⟨m.rows, m.cols, adjData⟩ : Mat).transpose.scalarMul (1/det))

/-- The leading `n×n` coefficient block built by `cramer_rule`
(`core_matrix.data[i][j] = self.data[i][j]` for `i, j < n`). -/
def Mat.coeffBlock (m : Mat) : Mat :=
  ⟨m.rows, m.rows,
    (List.range m.rows).map (fun i => (List.range m.rows).map (fun j => m.entry i j))⟩

/-- The `cramer_rule` per-variable matrix: a clone of the coefficient block with
column `i` overwritten by the constants column `self.data[j][n]` (`n = rows`,
the last column of the augmented matrix). -/
def Mat.colReplaced (m : Mat) (i : Nat) : Mat :=
  ⟨m.rows, m.rows,
    (List.range m.rows).map (fun r => (m.coeffBlock.data.getD r []).set i (m.entry r m.rows))⟩

/-- The method `Matrix::cramer_rule`.  The Rust guard is `n != self.cols - 1` on `usize`;
subtraction is modelled over `ℤ` so that `cols = 0` keeps the guard true
(release-mode wrap-around makes `0 - 1` astronomically large) instead of the
`Nat` truncation `0 - 1 = 0`.  Then: the determinant of the leading
coefficient block via `?`, the exact-zero singularity guard, and for each
variable the determinant of the block with column `i` replaced by the
constants column, divided by `det_a`. -/
def Mat.cramer_rule (m : Mat) : Except String (List ℚ) :=
  if (m.rows : ℤ) ≠ (m.cols : ℤ) - 1 then .error cramerDimMsg
  else
    match m.coeffBlock.determinant with
    | .error e => .error e
    | .ok detA =>
      if detA = 0 then .error cramerSingularMsg
      else
        (List.range m.rows).mapM (fun i =>
          ((m.colReplaced i).determinant).map (fun d => d / detA))

/-! ### Generic list lemmas used throughout -/

theorem getD_map_range {α : Type} (f : Nat → α) (d : α) {i n : Nat} (h : i < n) :
    ((List.range n).map f).getD i d = f i := by
  rw [List.getD_eq_getElem?_getD, List.getElem?_map, List.getElem?_range h]
  rfl

theorem foldl_add_eq_sum (f : Nat → ℚ) (n : Nat) :
    (List.range n).foldl (fun acc j => acc + f j) 0 = ∑ j in Finset.range n, f j := by
  induction n with
  | zero => simp
  | succ n ih =>
      rw [List.range_succ, List.foldl_append, Finset.sum_range_succ, ih]
      simp

theorem getD_eraseIdx {α : Type} (l : List α) (i k : Nat) (d : α)
    (hk : k + 1 < l.length) :
    (l.eraseIdx i).getD k d = if k < i then l.getD k d else l.getD (k+1) d := by
  induction l generalizing i k with
  | nil => simp at hk
  | cons a t ih =>
      cases i with
      | zero => simp [List.eraseIdx]
      | succ i' =>
          cases k with
          | zero => simp [List.eraseIdx]
          | succ k' =>
              have hk' : k' + 1 < t.length := by simpa using hk
              simp only [List.eraseIdx, List.getD_cons_succ, Nat.succ_lt_succ_iff]
              exact ih i' k' hk'

theorem length_eraseIdx_of_lt {α : Type} {l : List α} {i : Nat} (h : i < l.length) :
    (l.eraseIdx i).length = l.length - 1 := by
  rw [List.length_eraseIdx]
  simp [h]

/-! ### C1: the determinant contract -/

theorem minor_rows (m : Mat) (i j : Nat) : (m.minor i j).rows = m.rows - 1 := rfl

theorem minor_cols (m : Mat) (i j : Nat) : (m.minor i j).cols = m.cols - 1 := rfl

theorem determinant_of_square {m : Mat} (h : m.rows = m.cols) :
    m.determinant = .ok (detAux m.rows m) := by
  simp [Mat.determinant, h]

/-- C1.  `Determinant(M)` fails with the `NotSquare` error iff
`M.rows ≠ M.cols`; on square input it returns the single entry (1×1),
`ad − bc` (2×2), and otherwise the cofactor expansion along row 0: the sum
over columns `j` of `entry[0][j]` times the determinant of the minor deleting
row 0 and column `j`, times `+1` for even `j` and `−1` for odd `j`. -/
theorem determinant_spec (m : Mat) (hwf : m.WF) :
    (m.determinant = .error notSquareMsg ↔ m.rows ≠ m.cols)
    ∧ (m.rows = m.cols →
        (m.rows = 1 → m.determinant = .ok (m.entry 0 0))
        ∧ (m.rows = 2 →
            m.determinant = .ok (m.entry 0 0 * m.entry 1 1 - m.entry 0 1 * m.entry 1 0))
        ∧ (m.rows ≠ 1 → m.rows ≠ 2 →
            (∀ j < m.cols, ((m.minor 0 j).determinant).isOk = true)
            ∧ m.determinant = .ok (∑ j in Finset.range m.cols,
                m.entry 0 j * ((m.minor 0 j).determinant.toOption.getD 0)
                  * (if j % 2 = 0 then 1 else -1)))) := by
  constructor
  · constructor
    · intro herr hsq
      rw [determinant_of_square hsq] at herr
      exact Except.noConfusion herr
    · intro hne
      simp [Mat.determinant, hne]
  · intro hsq
    refine ⟨?_, ?_, ?_⟩
    · intro h1
      rw [determinant_of_square hsq, h1]
      rfl
    · intro h2
      rw [determinant_of_square hsq, h2]
      rfl
    · intro h1 h2
      have hminor_sq : ∀ j : Nat, (m.minor 0 j).rows = (m.minor 0 j).cols := by
        intro j
        rw [minor_rows, minor_cols, hsq]
      have hdetm : ∀ j : Nat,
          (m.minor 0 j).determinant = .ok (detAux (m.rows - 1) (m.minor 0 j)) := by
        intro j
        rw [determinant_of_square (hminor_sq j), minor_rows]
      refine ⟨?_, ?_⟩
      · intro j _
        rw [hdetm j]
        rfl
      · rcases hn : m.rows with _ | _ | _ | n
        · -- 0×0: past the square guard `cols = 0`, the loop is empty, `det = 0`
          rw [determinant_of_square hsq, hn]
          rw [← hsq, hn]
          simp [detAux]
        · exact absurd hn h1
        · exact absurd hn h2
        · rw [determinant_of_square hsq, hn]
          show Except.ok (detAux (n+3) m) = _
          rw [detAux, foldl_add_eq_sum
            (fun j => m.entry 0 j * detAux (n+2) (m.minor 0 j) * (if j % 2 = 0 then 1 else -1))]
          congr 1
          refine Finset.sum_congr rfl (fun j _ => ?_)
          rw [hdetm j, hn]
          rfl

/-- Witness for C1 at the concrete 3×3 matrix `[[1,2,3],[4,5,6],[7,8,9]]`. -/
theorem determinant_spec_witness :
    (⟨3, 3, [[1,2,3],[4,5,6],[7,8,9]]⟩ : Mat).WF
    ∧ ((⟨3, 3, [[1,2,3],[4,5,6],[7,8,9]]⟩ : Mat).determinant = .error notSquareMsg ↔
        (⟨3, 3, [[1,2,3],[4,5,6],[7,8,9]]⟩ : Mat).rows ≠
          (⟨3, 3, [[1,2,3],[4,5,6],[7,8,9]]⟩ : Mat).cols) :=
  ⟨by decide, (determinant_spec ⟨3, 3, [[1,2,3],[4,5,6],[7,8,9]]⟩ (by decide)).1⟩

/-! ### C6: matrix multiplication -/

theorem mapM_ok {α β : Type} (l : List α) (f : α → Except String β) (g : α → β)
    (h : ∀ a ∈ l, f a = .ok (g a)) : l.mapM f = .ok (l.map g) := by
  induction l with
  | nil => rfl
  | cons a t ih =>
      rw [List.mapM_cons, h a (List.mem_cons_self a t),
        ih (fun x hx => h x (List.mem_cons_of_mem a hx))]
      rfl

/-- C6.  `Multiply(A, B)` fails with the `Incompatible` error iff
`A.cols ≠ B.rows`; otherwise it returns the standard product of dimensions
`A.rows × B.cols` with entry `(i,j) = Σₖ A[i][k]·B[k][j]`, and in particular
`[[1,2],[3,4]] * [[5,6],[7,8]] = [[19,22],[43,50]]`. -/
theorem matMul_spec :
    (∀ a b : Mat,
      (a.matMul b = .error mulDimMsg ↔ a.cols ≠ b.rows)
      ∧ (a.cols = b.rows → ∃ c, a.matMul b = .ok c ∧ c.rows = a.rows ∧ c.cols = b.cols ∧
          ∀ i < a.rows, ∀ j < b.cols,
            c.entry i j = ∑ k in Finset.range a.cols, a.entry i k * b.entry k j))
    ∧ (⟨2, 2, [[1,2],[3,4]]⟩ : Mat).matMul ⟨2, 2, [[5,6],[7,8]]⟩
        = .ok ⟨2, 2, [[19,22],[43,50]]⟩ := by
  constructor
  · intro a b
    constructor
    · by_cases hab : a.cols = b.rows <;> simp [Mat.matMul, hab]
    · intro hab
      have hg : ¬ (a.cols ≠ b.rows) := by simp [hab]
      refine ⟨⟨a.rows, b.cols, (List.range a.rows).map (fun i =>
          (List.range b.cols).map (fun j =>
            (List.range a.cols).foldl (fun acc k => acc + a.entry i k * b.entry k j) 0))⟩,
        ?_, rfl, rfl, ?_⟩
      · unfold Mat.matMul
        rw [if_neg hg]
      · intro i hi j hj
        show ((((List.range a.rows).map _).getD i []).getD j 0 : ℚ) = _
        rw [getD_map_range _ _ hi, getD_map_range _ _ hj, foldl_add_eq_sum]
  · show (if (2 : Nat) ≠ 2 then _ else _) = _
    norm_num [Mat.entry, List.range_succ, List.getD]

/-- Witness for C6 at a compatible 2×3 / 3×2 pair. -/
theorem matMul_spec_witness :
    (⟨2, 3, [[0,0,0],[0,0,0]]⟩ : Mat).cols = (⟨3, 2, [[0,0],[0,0],[0,0]]⟩ : Mat).rows
    ∧ ∃ c, (⟨2, 3, [[0,0,0],[0,0,0]]⟩ : Mat).matMul ⟨3, 2, [[0,0],[0,0],[0,0]]⟩ = .ok c
        ∧ c.rows = (⟨2, 3, [[0,0,0],[0,0,0]]⟩ : Mat).rows
        ∧ c.cols = (⟨3, 2, [[0,0],[0,0],[0,0]]⟩ : Mat).cols
        ∧ ∀ i < (⟨2, 3, [[0,0,0],[0,0,0]]⟩ : Mat).rows,
            ∀ j < (⟨3, 2, [[0,0],[0,0],[0,0]]⟩ : Mat).cols,
            c.entry i j = ∑ k in Finset.range (⟨2, 3, [[0,0,0],[0,0,0]]⟩ : Mat).cols,
              (⟨2, 3, [[0,0,0],[0,0,0]]⟩ : Mat).entry i k
                * (⟨3, 2, [[0,0],[0,0],[0,0]]⟩ : Mat).entry k j :=
  ⟨rfl, (matMul_spec.1 ⟨2, 3, [[0,0,0],[0,0,0]]⟩ ⟨3, 2, [[0,0],[0,0],[0,0]]⟩).2 rfl⟩

/-! ### C2: the inverse contract -/

theorem entry_scalarMul (m : Mat) (k : ℚ) {i j : Nat} (hi : i < m.rows) (hj : j < m.cols) :
    (m.scalarMul k).entry i j = m.entry i j * k := by
  show (((List.range m.rows).map _).getD i []).getD j 0 = _
  rw [getD_map_range _ _ hi, getD_map_range _ _ hj]

theorem entry_transpose (m : Mat) {i j : Nat} (hi : i < m.cols) (hj : j < m.rows) :
    (m.transpose).entry i j = m.entry j i := by
  show (((List.range m.cols).map _).getD i []).getD j 0 = _
  rw [getD_map_range _ _ hi, getD_map_range _ _ hj]

/-- C2.  On square input, `Inverse(M)` fails with the `Singular` error exactly
when `Determinant(M)` is exactly zero; a nonsingular 1×1 matrix yields
`[[1/det]]`; a larger nonsingular matrix yields the transpose of the cofactor
matrix scaled by `1/det`, i.e. entry `(i,j)` of the result is the determinant
of the minor excluding row `j` and column `i`, times `+1` when `i+j` is even
and `−1` when odd, times `1/det`. -/
theorem inverse_spec (m : Mat) (hwf : m.WF) (hsq : m.rows = m.cols) :
    (m.inverse = .error singularMsg ↔ m.determinant = .ok 0)
    ∧ (∀ d, m.determinant = .ok d → d ≠ 0 →
        (m.rows = 1 → m.inverse = .ok ⟨1, 1, [[1/d]]⟩)
        ∧ (m.rows ≠ 1 → ∃ inv, m.inverse = .ok inv
            ∧ inv.rows = m.rows ∧ inv.cols = m.cols
            ∧ ∀ i < m.rows, ∀ j < m.cols,
                ((m.minor j i).determinant).isOk = true
                ∧ inv.entry i j = ((m.minor j i).determinant.toOption.getD 0)
                    * (if (i + j) % 2 = 0 then 1 else -1) * (1/d))) := by
  have hdet : m.determinant = .ok (detAux m.rows m) := determinant_of_square hsq
  have hminor_det : ∀ i j : Nat,
      (m.minor i j).determinant = .ok (detAux (m.rows - 1) (m.minor i j)) := by
    intro i j
    rw [determinant_of_square (by rw [minor_rows, minor_cols, hsq]), minor_rows]
  have houter : (List.range m.rows).mapM (fun i => (List.range m.cols).mapM (fun j =>
        ((m.minor i j).determinant).map
          (fun d => d * (if (i + j) % 2 = 0 then (1:ℚ) else -1))))
      = .ok ((List.range m.rows).map (fun i => (List.range m.cols).map (fun j =>
          detAux (m.rows - 1) (m.minor i j) * (if (i + j) % 2 = 0 then 1 else -1)))) :=
    mapM_ok _ _ _ (fun i _ =>
      mapM_ok _ _ _ (fun j _ => by rw [hminor_det i j]; rfl))
  have hunf : m.inverse = (if detAux m.rows m = 0 then .error singularMsg
      else if m.rows = 1 then .ok ⟨1, 1, [[1/(detAux m.rows m)]]⟩
      else match (List.range m.rows).mapM (fun i =>
          (List.range m.cols).mapM (fun j =>
            ((m.minor i j).determinant).map
              (fun d => d * (if (i + j) % 2 = 0 then 1 else -1)))) with
        | .error e => .error e
        | .ok adjData =>
            .ok ((⟨m.rows, m.cols, adjData⟩ : Mat).transpose.scalarMul
              (1/(detAux m.rows m)))) := by
    unfold Mat.inverse
    rw [hdet]
  constructor
  · rw [hunf, hdet]
    by_cases hD : detAux m.rows m = 0
    · simp [hD]
    · rw [if_neg hD]
      by_cases h1 : m.rows = 1
      · rw [if_pos h1]
        simp [hD]
      · rw [if_neg h1, houter]
        simp [hD]
  · intro d hd hdne
    rw [hdet] at hd
    have hD : detAux m.rows m = d := Except.ok.inj hd
    subst hD
    constructor
    · intro h1
      rw [hunf, if_neg hdne, if_pos h1]
    · intro h1
      rw [hunf, if_neg hdne, if_neg h1, houter]
      refine ⟨_, rfl, ?_, ?_, ?_⟩
      · show m.cols = m.rows
        exact hsq.symm
      · exact hsq
      · intro i hi j hj
        refine ⟨by rw [hminor_det j i]; rfl, ?_⟩
        have hi' : i < m.cols := hsq ▸ hi
        have hj' : j < m.rows := hsq ▸ hj
        rw [entry_scalarMul _ _ hi' hj',
          entry_transpose (Mat.mk m.rows m.cols ((List.range m.rows).map (fun r =>
            (List.range m.cols).map (fun c =>
              detAux (m.rows - 1) (m.minor r c) * (if (r + c) % 2 = 0 then 1 else -1)))))
            hi' hj']
        show (((List.range m.rows).map _).getD j []).getD i 0 * _ = _
        rw [getD_map_range _ _ hj', getD_map_range _ _ hi', hminor_det j i]
        show detAux (m.rows - 1) (m.minor j i) * (if (j + i) % 2 = 0 then 1 else -1) * _ = _
        rw [Nat.add_comm j i]
        rfl

/-- Witness for C2 at the 2×2 identity matrix. -/
theorem inverse_spec_witness :
    (⟨2, 2, [[1,0],[0,1]]⟩ : Mat).WF
    ∧ (⟨2, 2, [[1,0],[0,1]]⟩ : Mat).rows = (⟨2, 2, [[1,0],[0,1]]⟩ : Mat).cols
    ∧ ((⟨2, 2, [[1,0],[0,1]]⟩ : Mat).inverse = .error singularMsg ↔
        (⟨2, 2, [[1,0],[0,1]]⟩ : Mat).determinant = .ok 0) :=
  ⟨by decide, rfl, (inverse_spec ⟨2, 2, [[1,0],[0,1]]⟩ (by decide) rfl).1⟩

/-! ### C4: Cramer's rule -/

/-- C4.  For an augmented matrix with `cols = rows + 1`, `CramerRule` extracts
the leading `n×n` coefficient block and fails with the `Singular` error iff
its determinant is exactly zero; otherwise `solution[i]` is the determinant of
the block with column `i` replaced by the constants column, divided by the
block's determinant.  For `cols ≠ rows + 1` it fails with `InvalidAugmented`. -/
theorem cramer_spec (m : Mat) (hwf : m.WF) :
    (m.cols ≠ m.rows + 1 → m.cramer_rule = .error cramerDimMsg)
    ∧ (m.cols = m.rows + 1 →
        (m.cramer_rule = .error cramerSingularMsg ↔ m.coeffBlock.determinant = .ok 0)
        ∧ ∀ d, m.coeffBlock.determinant = .ok d → d ≠ 0 →
            ∃ sol, m.cramer_rule = .ok sol ∧ sol.length = m.rows ∧
              ∀ i < m.rows, ((m.colReplaced i).determinant).isOk = true
                ∧ sol.getD i 0 = ((m.colReplaced i).determinant.toOption.getD 0) / d) := by
  have hcore : m.coeffBlock.determinant = .ok (detAux m.rows m.coeffBlock) :=
    determinant_of_square rfl
  have hcol : ∀ i : Nat,
      (m.colReplaced i).determinant = .ok (detAux m.rows (m.colReplaced i)) :=
    fun i => determinant_of_square rfl
  constructor
  · intro hne
    have hg : (m.rows : ℤ) ≠ (m.cols : ℤ) - 1 := by omega
    unfold Mat.cramer_rule
    rw [if_pos hg]
  · intro heq
    have hguard : ¬ ((m.rows : ℤ) ≠ (m.cols : ℤ) - 1) := by omega
    have hmapM : (List.range m.rows).mapM (fun i =>
          ((m.colReplaced i).determinant).map
            (fun x => x / (detAux m.rows m.coeffBlock)))
        = .ok ((List.range m.rows).map (fun i =>
            detAux m.rows (m.colReplaced i) / (detAux m.rows m.coeffBlock))) :=
      mapM_ok _ _ _ (fun i _ => by rw [hcol i]; rfl)
    have hunf : m.cramer_rule = (if detAux m.rows m.coeffBlock = 0
        then .error cramerSingularMsg
        else (List.range m.rows).mapM (fun i =>
          ((m.colReplaced i).determinant).map
            (fun x => x / (detAux m.rows m.coeffBlock)))) := by
      unfold Mat.cramer_rule
      rw [if_neg hguard, hcore]
    constructor
    · rw [hunf, hcore]
      by_cases hD : detAux m.rows m.coeffBlock = 0
      · simp [hD]
      · rw [if_neg hD, hmapM]
        simp [hD]
    · intro d hd hdne
      rw [hcore] at hd
      have hD : detAux m.rows m.coeffBlock = d := Except.ok.inj hd
      subst hD
      rw [hunf, if_neg hdne, hmapM]
      refine ⟨_, rfl, ?_, ?_⟩
      · rw [List.length_map, List.length_range]
      · intro i hi
        refine ⟨by rw [hcol i]; rfl, ?_⟩
        rw [getD_map_range _ _ hi, hcol i]
        rfl

/-- Witness for C4 at a concrete 2×3 augmented matrix. -/
theorem cramer_spec_witness :
    (⟨2, 3, [[1,0,2],[0,1,3]]⟩ : Mat).WF
    ∧ ((⟨2, 3, [[1,0,2],[0,1,3]]⟩ : Mat).cols ≠ (⟨2, 3, [[1,0,2],[0,1,3]]⟩ : Mat).rows + 1 →
        (⟨2, 3, [[1,0,2],[0,1,3]]⟩ : Mat).cramer_rule = .error cramerDimMsg) :=
  ⟨by decide, (cramer_spec ⟨2, 3, [[1,0,2],[0,1,3]]⟩ (by decide)).1⟩

/-! ### C7: determinant of the transpose

The cofactor recursion `detAux` is identified with Mathlib's `Matrix.det`
(on well-formed square matrices of positive size), and the claim follows from
`Matrix.det_transpose`. -/

theorem getD_map_of_lt {α β : Type} (f : α → β) {X : List α} {k : Nat} (h : k < X.length)
    (d : β) (d₀ : α) : (X.map f).getD k d = f (X.getD k d₀) := by
  rw [List.getD_eq_getElem (X.map f) d (by simpa using h), List.getD_eq_getElem X d₀ h,
    List.getElem_map]

theorem minor_WF (m : Mat) (hwf : m.WF) {i j : Nat} (hi : i < m.rows) (hj : j < m.cols) :
    (m.minor i j).WF := by
  obtain ⟨hlen, hrow⟩ := hwf
  constructor
  · show ((m.data.eraseIdx i).map _).length = m.rows - 1
    rw [List.length_map, length_eraseIdx_of_lt (by rw [hlen]; exact hi), hlen]
  · intro r hr
    show r.length = m.cols - 1
    have hr' : r ∈ (m.data.eraseIdx i).map (fun r => r.eraseIdx j) := hr
    rw [List.mem_map] at hr'
    obtain ⟨r₀, hr₀, rfl⟩ := hr'
    have hr₀m : r₀ ∈ m.data := (List.eraseIdx_sublist m.data i).subset hr₀
    rw [length_eraseIdx_of_lt (by rw [hrow r₀ hr₀m]; exact hj), hrow r₀ hr₀m]

theorem transpose_WF (m : Mat) : m.transpose.WF := by
  constructor
  · show ((List.range m.cols).map _).length = m.cols
    rw [List.length_map, List.length_range]
  · intro r hr
    show r.length = m.rows
    have hr' : r ∈ (List.range m.cols).map
        (fun j => (List.range m.rows).map (fun i => m.entry i j)) := hr
    rw [List.mem_map] at hr'
    obtain ⟨j, _, rfl⟩ := hr'
    rw [List.length_map, List.length_range]

theorem entry_minor (m : Mat) (hwf : m.WF) {i j k l : Nat} (hi : i < m.rows) (hj : j < m.cols)
    (hk : k < m.rows - 1) (hl : l < m.cols - 1) :
    (m.minor i j).entry k l
      = m.entry (if k < i then k else k + 1) (if l < j then l else l + 1) := by
  obtain ⟨hlen, hrow⟩ := hwf
  have hiL : i < m.data.length := by rw [hlen]; exact hi
  have hkE : k + 1 < m.data.length := by rw [hlen]; omega
  have hkel : k < (m.data.eraseIdx i).length := by
    rw [length_eraseIdx_of_lt hiL, hlen]; omega
  show (((m.data.eraseIdx i).map (fun r => r.eraseIdx j)).getD k []).getD l 0 = _
  rw [getD_map_of_lt _ hkel [] [], getD_eraseIdx m.data i k [] hkE]
  have hmem : ∀ k' : Nat, k' < m.data.length → m.data.getD k' [] ∈ m.data := by
    intro k' hk'
    rw [List.getD_eq_getElem m.data [] hk']
    exact List.getElem_mem hk'
  by_cases hki : k < i
  · rw [if_pos hki, if_pos hki]
    have hrl : l + 1 < (m.data.getD k []).length := by
      rw [hrow _ (hmem k (by omega))]; omega
    rw [getD_eraseIdx _ j l 0 hrl]
    by_cases hlj : l < j <;> simp [hlj, Mat.entry]
  · rw [if_neg hki, if_neg hki]
    have hrl : l + 1 < (m.data.getD (k+1) []).length := by
      rw [hrow _ (hmem (k+1) hkE)]; omega
    rw [getD_eraseIdx _ j l 0 hrl]
    by_cases hlj : l < j <;> simp [hlj, Mat.entry]

/-- The well-formed `n×n` part of a `Mat` as a Mathlib matrix. -/
def toM (n : Nat) (m : Mat) : Matrix (Fin n) (Fin n) ℚ :=
  Matrix.of (fun i j => m.entry i j)

theorem sign_pow (j : Nat) : (if j % 2 = 0 then (1:ℚ) else -1) = (-1)^j := by
  rcases Nat.even_or_odd j with h | h
  · rw [if_pos (Nat.even_iff.mp h), Even.neg_one_pow h]
  · rw [if_neg (by simp [Nat.odd_iff.mp h]), Odd.neg_one_pow h]

theorem detAux_eq_det (n : Nat) : ∀ m : Mat, m.WF → m.rows = n → m.cols = n → 1 ≤ n →
    detAux n m = (toM n m).det := by
  induction n using Nat.strong_induction_on with
  | _ n ih =>
    intro m hwf hr hc h1
    rcases n with _ | _ | _ | k
    · omega
    · rw [Matrix.det_fin_one]
      rfl
    · rw [Matrix.det_fin_two]
      rfl
    · have hsub : ∀ jF : Fin (k+3),
          ((toM (k+3) m).submatrix Fin.succ jF.succAbove).det
            = detAux (k+2) (m.minor 0 (jF.val)) := by
        intro jF
        have hjv : jF.val < m.cols := by rw [hc]; exact jF.2
        have heq : (toM (k+3) m).submatrix Fin.succ jF.succAbove
            = toM (k+2) (m.minor 0 jF.val) := by
          ext a b
          show toM (k+3) m (Fin.succ a) (jF.succAbove b) = (m.minor 0 jF.val).entry a b
          rw [entry_minor m hwf (by omega) hjv (by rw [hr]; exact a.2) (by rw [hc]; exact b.2)]
          rcases lt_or_ge (b.castSucc) jF with hlt | hge
          · rw [Fin.succAbove_of_castSucc_lt jF b hlt]
            have hbv : b.val < jF.val := by simpa [Fin.lt_def] using hlt
            simp [toM, hbv]
          · rw [Fin.succAbove_of_le_castSucc jF b hge]
            have hbv : ¬ (b.val < jF.val) := by
              simp only [Fin.le_def, Fin.coe_castSucc] at hge
              omega
            simp [toM, hbv]
        rw [heq]
        exact (ih (k+2) (by omega) (m.minor 0 jF.val)
          (minor_WF m hwf (by omega) hjv)
          (by rw [minor_rows]; omega) (by rw [minor_cols]; omega) (by omega)).symm
      rw [detAux, hc, foldl_add_eq_sum (fun j =>
        m.entry 0 j * detAux (k+2) (m.minor 0 j) * (if j % 2 = 0 then 1 else -1))]
      rw [Matrix.det_succ_row_zero]
      simp only [hsub]
      simp only [toM, Matrix.of_apply, Fin.val_zero]
      rw [Fin.sum_univ_eq_sum_range (fun jv =>
        ((-1:ℚ))^jv * m.entry 0 jv * detAux (k+2) (m.minor 0 jv)) (k+3)]
      refine Finset.sum_congr rfl (fun j _ => ?_)
      rw [sign_pow]
      ring

/-- C7 (amended).  For every well-formed square matrix, the determinant of
the transpose equals the determinant of the matrix for the *ideal*
(exact-arithmetic) values of the two cofactor-expansion evaluations.  Bit
exact equality of the two `f64` evaluations does not hold in general — the
two expansions multiply and round in different orders — see the rounding
counterexample below. -/
theorem det_transpose_spec (m : Mat) (hwf : m.WF) (hsq : m.rows = m.cols) :
    m.transpose.determinant = m.determinant := by
  have h' : m.transpose.rows = m.transpose.cols := hsq.symm
  have h2 : m.transpose.determinant = .ok (detAux m.cols m.transpose) :=
    determinant_of_square h'
  rw [h2, determinant_of_square hsq, ← hsq]
  rcases Nat.eq_zero_or_pos m.rows with h0 | hpos
  · rw [h0]
    rfl
  · congr 1
    rw [detAux_eq_det m.rows m.transpose (transpose_WF m) hsq.symm rfl hpos,
      detAux_eq_det m.rows m hwf rfl hsq.symm hpos]
    have heqM : toM m.rows m.transpose = (toM m.rows m).transpose := by
      ext i j
      show m.transpose.entry i.val j.val = toM m.rows m j i
      rw [entry_transpose m (by rw [← hsq]; exact i.2) j.2]
      rfl
    rw [heqM, Matrix.det_transpose]

/-- Witness for C7 at a concrete 3×3 matrix. -/
theorem det_transpose_spec_witness :
    (⟨3, 3, [[1,2,3],[4,5,6],[7,8,10]]⟩ : Mat).WF
    ∧ (⟨3, 3, [[1,2,3],[4,5,6],[7,8,10]]⟩ : Mat).rows
        = (⟨3, 3, [[1,2,3],[4,5,6],[7,8,10]]⟩ : Mat).cols
    ∧ (⟨3, 3, [[1,2,3],[4,5,6],[7,8,10]]⟩ : Mat).transpose.determinant
        = (⟨3, 3, [[1,2,3],[4,5,6],[7,8,10]]⟩ : Mat).determinant :=
  ⟨by decide, rfl, det_transpose_spec ⟨3, 3, [[1,2,3],[4,5,6],[7,8,10]]⟩ (by decide) rfl⟩

/-! #### The `f64` rounding counterexample for C7 as originally stated

The original claim asks for exact equality of the *double-precision* values
computed by the two cofactor-expansion evaluations.  The model below tracks
IEEE-754 binary64 arithmetic exactly for runs whose values are all
integer-valued doubles: every entry is an integer below `2^53` (hence exactly
representable), every `+`, `-`, `*` then has an integer exact result, and
IEEE rounds that exact result to the nearest representable double — which for
an integer of magnitude below `2^1024` is round-to-nearest-even on its 53-bit
significand, implemented by `flNat`.  No division, overflow, NaN or negative
zero can occur in such a run, so the model is exact there. -/

/-- Bit length of a natural number (correct below `2^1100`, far beyond the
`f64` range). -/
def ebitsAux : Nat → Nat → Nat
  | 0, _ => 0
  | fuel+1, n => if n = 0 then 0 else ebitsAux fuel (n / 2) + 1

def ebits (n : Nat) : Nat := ebitsAux 1100 n

/-- Round-to-nearest-even of a natural number to 53 significant bits: the
IEEE-754 binary64 value nearest to `n` (for `n < 2^1024`). -/
def flNat (n : Nat) : Nat :=
  if ebits n ≤ 53 then n
  else
    let k := ebits n - 53
    let q := n / 2^k
    let r := n % 2^k
    let half := 2^(k-1)
    if r < half then q * 2^k
    else if half < r then (q+1) * 2^k
    else (if q % 2 = 0 then q * 2^k else (q+1) * 2^k)

/-- IEEE-754 rounding of an integer, sign-symmetrically. -/
def flInt (n : ℤ) : ℤ :=
  if n < 0 then -(flNat n.natAbs : ℤ) else (flNat n.natAbs : ℤ)

/-- `f64` multiplication, subtraction and addition on integer-valued doubles:
the exact integer result, rounded. -/
def fmulZ (x y : ℤ) : ℤ := flInt (x * y)

def fsubZ (x y : ℤ) : ℤ := flInt (x - y)

def faddZ (x y : ℤ) : ℤ := flInt (x + y)

def entryLZ (a : List (List ℤ)) (i j : Nat) : ℤ := (a.getD i []).getD j 0

/-- The row-0 minor of `Matrix::determinant`, on raw integer data. -/
def minorZ (a : List (List ℤ)) (j : Nat) : List (List ℤ) :=
  a.tail.map (fun r => r.eraseIdx j)

/-- `Matrix::transpose` on raw `n×n` integer data. -/
def transposeZ (a : List (List ℤ)) (n : Nat) : List (List ℤ) :=
  (List.range n).map (fun j => (List.range n).map (fun i => entryLZ a i j))

/-- The recursion of `Matrix::determinant` with every `f64` operation rounded
(`det += data[0][j] * subdet * sign` is two rounded multiplications followed
by a rounded addition; the 2×2 base case is two rounded multiplications and a
rounded subtraction).  As in `detAux`, the measure is the row count and the
cofactor loop runs over `0..cols` with `cols = rows` past the square guard. -/
def detAuxF : Nat → List (List ℤ) → ℤ
  | 0, _ => 0
  | 1, a => entryLZ a 0 0
  | 2, a => fsubZ (fmulZ (entryLZ a 0 0) (entryLZ a 1 1))
      (fmulZ (entryLZ a 0 1) (entryLZ a 1 0))
  | n+3, a =>
      (List.range (n+3)).foldl
        (fun det j =>
          faddZ det (fmulZ (fmulZ (entryLZ a 0 j) (detAuxF (n+2) (minorZ a j)))
            (if j % 2 = 0 then 1 else -1)))
        0

/-- The double matrix `[[0,3,0],[9,0,0],[0,0,2^50+1]]` (every entry an exact
double).  Its determinant evaluation reduces to `-fl(3 · fl(9 · c))` while the
transpose's reduces to `-fl(9 · fl(3 · c))`, and for `c = 2^50 + 1` the two
roundings land one ulp apart. -/
def c7data : List (List ℤ) := [[0, 3, 0], [9, 0, 0], [0, 0, 1125899906842625]]

/-- Counterexample to C7 as stated: at the concrete double matrix `c7data`,
the `f64`-evaluated cofactor expansions of the matrix and of its transpose
produce *different* doubles (`-30399297484750872` versus
`-30399297484750876`), so exact equality of the computed double-precision
values fails. -/
theorem det_transpose_f64_counterexample :
    detAuxF 3 c7data = -30399297484750872
    ∧ detAuxF 3 (transposeZ c7data 3) = -30399297484750876
    ∧ detAuxF 3 (transposeZ c7data 3) ≠ detAuxF 3 c7data := by
  refine ⟨by decide, by decide, by decide⟩

/-! ### Gaussian elimination (C3, C5)

`Matrix::gaussian_elimination` computes on `f64` entries.  The algorithm is
embedded once, parametric in the arithmetic on entries (`GaussOps`), and
instantiated twice:
* `ratOps` — the exact-rational reading used for C3 (division by a nonzero
  `f64` is mirrored by exact division; `f64` comparison of finite values is
  the rational comparison);
* `fOps` on `FVal` — a finiteness model used for C5, where `undef` stands
  for any non-finite `f64` (NaN or ±∞): dividing by an exact zero yields a
  non-finite value, and every arithmetic operation with a non-finite operand
  is modelled as non-finite.  This is exact for the concrete run used in C5,
  where the only non-finite values that arise are NaNs (`0.0/0.0` and its
  propagation: IEEE-754 NaN propagates through `-`, `*`, `/` and compares
  `false` under `>`), all finite values are small integers (no rounding, no
  overflow), and no ±∞ ever appears. -/

/-- The operations on entries that `gaussian_elimination` uses: `0.0`
(the `vec![0.0; rows]` initialiser and the out-of-bounds default), `-`, `*`,
`/`, and the pivot comparison `a.abs() > b.abs()`. -/
structure GaussOps (α : Type) where
  zero : α
  sub : α → α → α
  mul : α → α → α
  div : α → α → α
  absGT : α → α → Bool

/-- Entry access `a[i][j]` with an explicit default for the (never exercised
on well-formed data) out-of-bounds case. -/
def entry2 {α : Type} (z : α) (a : List (List α)) (i j : Nat) : α :=
  (a.getD i []).getD j z

/-- The pivot scan: `max_row = i`, then for `k` in `i+1..rows`, replace
`max_row` by `k` when `|a[k][i]| > |a[max_row][i]|` (strict comparison, so the
first occurrence keeps winning on ties). -/
def pivotRowIdx {α : Type} (G : GaussOps α) (a : List (List α)) (i rows : Nat) : Nat :=
  (List.range' (i+1) (rows - (i+1))).foldl
    (fun mx k => if G.absGT (entry2 G.zero a k i) (entry2 G.zero a mx i) = true then k else mx) i

/-- The `Vec::swap(i, j)` operation on the row list. -/
def swapRows {α : Type} (a : List (List α)) (i j : Nat) : List (List α) :=
  (a.set i (a.getD j [])).set j (a.getD i [])

/-- The elimination of column `i` below the pivot row: for each row `k > i`,
`factor = a[k][i] / a[i][i]`, then `a[k][j] -= factor * a[i][j]` for `j` in
`i..cols`; rows `k ≤ i` are untouched.  (Each updated row reads only itself
and the pivot row, so the row-by-row rebuild is the in-place loop.) -/
def elimBelow {α : Type} (G : GaussOps α) (a : List (List α)) (i rows cols : Nat) :
    List (List α) :=
  (List.range rows).map (fun k =>
    if i < k then
      (List.range cols).map (fun j =>
        if i ≤ j then
          G.sub (entry2 G.zero a k j)
            (G.mul (G.div (entry2 G.zero a k i) (entry2 G.zero a i i)) (entry2 G.zero a i j))
        else entry2 G.zero a k j)
    else a.getD k [])

/-- One iteration of the forward phase: pivot scan, conditional swap
(`if max_row != i`), elimination below. -/
def forwardStep {α : Type} (G : GaussOps α) (rows cols : Nat) (a : List (List α)) (i : Nat) :
    List (List α) :=
  elimBelow G
    (if pivotRowIdx G a i rows ≠ i then swapRows a i (pivotRowIdx G a i rows) else a)
    i rows cols

def forwardPhase {α : Type} (G : GaussOps α) (rows cols : Nat) (a : List (List α)) :
    List (List α) :=
  (List.range rows).foldl (forwardStep G rows cols) a

/-- Back-substitution: `solutions = vec![0.0; rows]`; for `i` from `rows-1`
down to `0`: start from `a[i][cols-1]`, subtract `a[i][j] * solutions[j]` for
`j` in `i+1..rows`, divide by `a[i][i]`, store at `i`. -/
def backSubst {α : Type} (G : GaussOps α) (rows cols : Nat) (a : List (List α)) : List α :=
  (List.range rows).reverse.foldl
    (fun sols i =>
      sols.set i (G.div
        ((List.range' (i+1) (rows - (i+1))).foldl
          (fun s j => G.sub s (G.mul (entry2 G.zero a i j) (sols.getD j G.zero)))
          (entry2 G.zero a i (cols - 1)))
        (entry2 G.zero a i i)))
    (List.replicate rows G.zero)

/-- The method `Matrix::gaussian_elimination`, parametric in the entry arithmetic:
the `rows + 1 != cols` guard, the forward phase on a private copy, then
back-substitution. -/
def gaussianElimG {α : Type} (G : GaussOps α) (rows cols : Nat) (data : List (List α)) :
    Except String (List α) :=
  if rows + 1 ≠ cols then .error gaussDimMsg
  else .ok (backSubst G rows cols (forwardPhase G rows cols data))

/-- Exact-rational entry arithmetic (the ideal-arithmetic reading of `f64`). -/
def ratOps : GaussOps ℚ :=
  ⟨0, Sub.sub, Mul.mul, Div.div, fun a b => decide (|b| < |a|)⟩

def Mat.gaussian_elimination (m : Mat) : Except String (List ℚ) :=
  gaussianElimG ratOps m.rows m.cols m.data

/-- An `f64` value tracked up to finiteness: `fin q` is a finite value of exact
rational magnitude `q`, `undef` is any non-finite value (NaN or ±∞). -/
inductive FVal where
  | fin : ℚ → FVal
  | undef : FVal
deriving DecidableEq

/-- Entry arithmetic on `FVal`: finite operands behave exactly; division by
an exact zero produces a non-finite value (`x/0.0` is `±∞` or NaN); a
non-finite operand yields a non-finite result, and the pivot comparison on a
non-finite operand is `false` (IEEE-754 NaN comparison; exact for runs where
the only non-finite values are NaNs and no overflow occurs). -/
def fOps : GaussOps FVal :=
  ⟨.fin 0,
    fun a b => match a, b with
      | .fin x, .fin y => .fin (x - y)
      | _, _ => .undef,
    fun a b => match a, b with
      | .fin x, .fin y => .fin (x * y)
      | _, _ => .undef,
    fun a b => match a, b with
      | .fin x, .fin y => if y = 0 then .undef else .fin (x / y)
      | _, _ => .undef,
    fun a b => match a, b with
      | .fin x, .fin y => decide (|y| < |x|)
      | _, _ => false⟩

/-- The concrete augmented system exhibiting the unguarded zero pivot for C5:
`[[0,1,1],[1,1,1]]`-shaped 2×3 data whose column 0 is entirely zero. -/
def c5data : List (List FVal) :=
  [[.fin 0, .fin 1, .fin 1], [.fin 0, .fin 1, .fin 1]]

/-- C5.  A witnessing augmented matrix (2 rows, 3 columns, so
`cols = rows + 1`) whose pivot column 0 is entirely zero at and below row 0:
the pivot scan leaves row 0 with its zero pivot entry, the division is
unguarded, and `gaussian_elimination` returns a *successful* solution vector
both of whose components are non-finite (`0.0/0.0` is NaN, which then
propagates).  No error is reported. -/
theorem zero_pivot_spec :
    (2 : Nat) + 1 = 3
    ∧ (entry2 fOps.zero c5data 0 0 = .fin 0 ∧ entry2 fOps.zero c5data 1 0 = .fin 0)
    ∧ pivotRowIdx fOps c5data 0 2 = 0
    ∧ gaussianElimG fOps 2 3 c5data = .ok [.undef, .undef] := by
  refine ⟨rfl, ⟨rfl, rfl⟩, by decide, ?_⟩
  have h : backSubst fOps 2 3 (forwardPhase fOps 2 3 c5data) = [.undef, .undef] := by decide
  show Except.ok (backSubst fOps 2 3 (forwardPhase fOps 2 3 c5data)) = _
  rw [h]

/-! ### C3: the Gaussian elimination contract

The specification's wording of the forward phase differs from the code in how
the pivot row is described: "the row whose column-`i` entry has the largest
absolute value under strict `>` comparison with the first occurrence winning
ties", with an unconditional swap into position `i`; and back-substitution is
described with an order-independent sum.  The spec-side solver below follows
those words (first index of `i..rows` attaining the maximum, unconditional
swap, `Finset.Ico` sum) and is proved equal to the embedded code. -/

/-- Whether `k` attains the maximum of `f` over `l`. -/
def maxCond (f : Nat → ℚ) (l : List Nat) (k : Nat) : Bool :=
  l.all (fun x => decide (f x ≤ f k))

/-- The first row index in `i..rows` whose column-`i` entry has the largest
absolute value (ties resolved to the earliest index). -/
def specPivot (a : List (List ℚ)) (i rows : Nat) : Nat :=
  ((List.range' i (rows - i)).find?
    (maxCond (fun k => |entry2 0 a k i|) (List.range' i (rows - i)))).getD i

/-- One spec-side forward iteration: select the pivot row, swap it into
position `i`, eliminate below (the elimination wording matches the code and
is shared). -/
def specForwardStep (rows cols : Nat) (a : List (List ℚ)) (i : Nat) : List (List ℚ) :=
  elimBelow ratOps (swapRows a i (specPivot a i rows)) i rows cols

def specForward (rows cols : Nat) (a : List (List ℚ)) : List (List ℚ) :=
  (List.range rows).foldl (specForwardStep rows cols) a

/-- Spec-side back-substitution: `solution[i] = (a[i][last] − Σ_{j>i}
a[i][j]·solution[j]) / a[i][i]`, from the last row upward. -/
def specBack (rows cols : Nat) (a : List (List ℚ)) : List ℚ :=
  (List.range rows).reverse.foldl
    (fun sols i =>
      sols.set i ((entry2 0 a i (cols - 1)
        - ∑ j in Finset.Ico (i+1) rows, entry2 0 a i j * sols.getD j 0)
        / entry2 0 a i i))
    (List.replicate rows 0)

def gaussSpecSolve (m : Mat) : List ℚ := specBack m.rows m.cols (specForward m.rows m.cols m.data)

theorem set_getD_self {α : Type} : ∀ (l : List α) (i : Nat) (d : α), i < l.length →
    l.set i (l.getD i d) = l := by
  intro l
  induction l with
  | nil => intro i d h; simp at h
  | cons a t ih =>
      intro i d h
      cases i with
      | zero => simp
      | succ i' =>
          show a :: t.set i' (t.getD i' d) = a :: t
          rw [ih i' d (by simpa using h)]

theorem swapRows_self {α : Type} (a : List (List α)) (i : Nat) (h : i < a.length) :
    swapRows a i i = a := by
  unfold swapRows
  rw [List.set_set]
  exact set_getD_self a i [] h

theorem find?_congr_on {α : Type} {p q : α → Bool} :
    ∀ (l : List α), (∀ x ∈ l, p x = q x) → l.find? p = l.find? q := by
  intro l
  induction l with
  | nil => intro _; rfl
  | cons a t ih =>
      intro h
      rcases hpa : p a with _ | _
      · rw [List.find?_cons_of_neg _ (by rw [hpa]; simp),
          List.find?_cons_of_neg _ (by rw [← h a (by simp), hpa]; simp),
          ih (fun x hx => h x (by simp [hx]))]
      · rw [List.find?_cons_of_pos _ hpa,
          List.find?_cons_of_pos _ (by rw [← h a (by simp)]; exact hpa)]

theorem exists_max (f : Nat → ℚ) : ∀ (l : List Nat), l ≠ [] → ∃ c ∈ l, ∀ x ∈ l, f x ≤ f c := by
  intro l
  induction l with
  | nil => intro h; exact absurd rfl h
  | cons a t ih =>
      intro _
      by_cases ht : t = []
      · subst ht
        exact ⟨a, by simp, by simp⟩
      · obtain ⟨c, hc, hmax⟩ := ih ht
        by_cases hac : f a ≤ f c
        · refine ⟨c, by simp [hc], ?_⟩
          intro x hx
          rcases List.mem_cons.mp hx with rfl | hx
          · exact hac
          · exact hmax x hx
        · refine ⟨a, by simp, ?_⟩
          intro x hx
          rcases List.mem_cons.mp hx with rfl | hx
          · exact le_refl _
          · exact le_trans (hmax x hx) (le_of_not_le hac)

theorem argmax_foldl (f : Nat → ℚ) :
    ∀ (l : List Nat) (p : Nat),
      l.foldl (fun mx k => if f mx < f k then k else mx) p
        = ((p :: l).find? (maxCond f (p :: l))).getD p := by
  intro l
  induction l with
  | nil =>
      intro p
      rw [List.find?_cons_of_pos _ (by simp [maxCond])]
      rfl
  | cons k t ih =>
      intro p
      rw [List.foldl_cons]
      by_cases hpk : f p < f k
      · rw [if_pos hpk, ih k]
        have hQp : maxCond f (p :: k :: t) p = false := by
          have : ¬ (f k ≤ f p) := not_le.mpr hpk
          simp [maxCond, this]
        have hcong : ∀ c ∈ (k :: t), maxCond f (p :: k :: t) c = maxCond f (k :: t) c := by
          intro c _
          simp only [maxCond, List.all_cons]
          rcases hkc : decide (f k ≤ f c) with _ | _
          · simp [hkc]
          · have hkc' : f k ≤ f c := of_decide_eq_true hkc
            have hpc : f p ≤ f c := le_trans (le_of_lt hpk) hkc'
            simp [hkc, hpc]
        conv_rhs => rw [List.find?_cons_of_neg _ (by rw [hQp]; simp)]
        rw [find?_congr_on _ hcong]
        obtain ⟨c, hcmem, hcmax⟩ := exists_max f (k :: t) (by simp)
        rcases hfind : (k :: t).find? (maxCond f (k :: t)) with _ | v
        · exfalso
          rw [List.find?_eq_none] at hfind
          exact hfind c hcmem
            (by simp only [maxCond, List.all_eq_true, decide_eq_true_eq]; exact hcmax)
        · rfl
      · rw [if_neg hpk, ih p]
        have hkp : f k ≤ f p := le_of_not_lt hpk
        have hQp : maxCond f (p :: k :: t) p = maxCond f (p :: t) p := by
          simp only [maxCond, List.all_cons]
          simp [hkp]
        by_cases hQpv : maxCond f (p :: t) p = true
        · rw [List.find?_cons_of_pos _ hQpv, List.find?_cons_of_pos _ (by rw [hQp]; exact hQpv)]
        · have hQp' : ¬ (maxCond f (p :: k :: t) p = true) := by rw [hQp]; exact hQpv
          rw [List.find?_cons_of_neg _ hQpv, List.find?_cons_of_neg _ hQp']
          have hQk : maxCond f (p :: k :: t) k = false := by
            rcases hx : maxCond f (p :: k :: t) k with _ | _
            · rfl
            · exfalso
              have hall : ∀ x ∈ (p :: k :: t), f x ≤ f k := by
                simpa [maxCond, List.all_eq_true] using hx
              apply hQpv
              simp only [maxCond, List.all_eq_true, decide_eq_true_eq]
              intro x hxm
              have hxk : f x ≤ f k := by
                apply hall
                rcases List.mem_cons.mp hxm with rfl | hxm
                · simp
                · simp [hxm]
              exact le_trans hxk hkp
          rw [List.find?_cons_of_neg _ (by rw [hQk]; simp)]
          have hcong : ∀ c ∈ t, maxCond f (p :: k :: t) c = maxCond f (p :: t) c := by
            intro c _
            simp only [maxCond, List.all_cons]
            rcases hpc : decide (f p ≤ f c) with _ | _
            · simp [hpc]
            · have hpc' : f p ≤ f c := of_decide_eq_true hpc
              have hkc : f k ≤ f c := le_trans hkp hpc'
              simp [hpc, hkc]
          rw [find?_congr_on t hcong]

theorem pivotRowIdx_eq_specPivot (a : List (List ℚ)) (i rows : Nat) (h : i < rows) :
    pivotRowIdx ratOps a i rows = specPivot a i rows := by
  unfold pivotRowIdx specPivot
  have hn : rows - i = (rows - (i+1)) + 1 := by omega
  have hsplit : List.range' i (rows - i) = i :: List.range' (i+1) (rows - (i+1)) := by
    rw [hn, List.range'_succ]
  rw [hsplit]
  have hstep : (fun mx k => if ratOps.absGT (entry2 ratOps.zero a k i)
        (entry2 ratOps.zero a mx i) = true then k else mx)
      = (fun mx k => if |entry2 0 a mx i| < |entry2 0 a k i| then k else mx) := by
    funext mx k
    simp [ratOps]
  rw [hstep]
  exact argmax_foldl (fun k => |entry2 0 a k i|) (List.range' (i+1) (rows - (i+1))) i

theorem foldl_sub_eq (g : Nat → ℚ) (s : Nat) : ∀ (n : Nat) (s0 : ℚ),
    (List.range' s n).foldl (fun acc j => acc - g j) s0
      = s0 - ∑ j in Finset.Ico s (s+n), g j := by
  intro n
  induction n with
  | zero => intro s0; simp
  | succ n ih =>
      intro s0
      have hc : List.range' s (n+1) = List.range' s n ++ [s+n] := by
        have h := @List.range'_concat 1 s n
        simpa using h
      rw [hc, List.foldl_append]
      simp only [List.foldl_cons, List.foldl_nil]
      rw [ih]
      have h2 : s + (n + 1) = (s + n) + 1 := rfl
      rw [h2, Finset.sum_Ico_succ_top (by omega : s ≤ s + n), sub_sub]

theorem length_elimBelow {α : Type} (G : GaussOps α) (a : List (List α)) (i rows cols : Nat) :
    (elimBelow G a i rows cols).length = rows := by
  unfold elimBelow
  rw [List.length_map, List.length_range]

theorem forwardStep_eq (rows cols : Nat) (a : List (List ℚ)) (i : Nat)
    (hi : i < rows) (hlen : a.length = rows) :
    forwardStep ratOps rows cols a i = specForwardStep rows cols a i := by
  unfold forwardStep specForwardStep
  rw [pivotRowIdx_eq_specPivot a i rows hi]
  by_cases hmx : specPivot a i rows ≠ i
  · rw [if_pos hmx]
  · rw [if_neg hmx]
    push_neg at hmx
    rw [hmx, swapRows_self a i (by rw [hlen]; exact hi)]

theorem forward_eq (rows cols : Nat) :
    ∀ (l : List Nat) (a : List (List ℚ)), (∀ i ∈ l, i < rows) → a.length = rows →
      l.foldl (forwardStep ratOps rows cols) a = l.foldl (specForwardStep rows cols) a := by
  intro l
  induction l with
  | nil => intro a _ _; rfl
  | cons i t ih =>
      intro a hmem hlen
      rw [List.foldl_cons, List.foldl_cons,
        forwardStep_eq rows cols a i (hmem i (by simp)) hlen]
      exact ih (specForwardStep rows cols a i) (fun x hx => hmem x (by simp [hx]))
        (by unfold specForwardStep; rw [length_elimBelow])

theorem foldl_congr_on {α β : Type} (f g : α → β → α) :
    ∀ (l : List β) (x : α), (∀ b ∈ l, ∀ y, f y b = g y b) → l.foldl f x = l.foldl g x := by
  intro l
  induction l with
  | nil => intro x _; rfl
  | cons b t ih =>
      intro x h
      rw [List.foldl_cons, List.foldl_cons, h b (by simp) x]
      exact ih _ (fun c hc y => h c (by simp [hc]) y)

theorem backSubst_eq (rows cols : Nat) (a : List (List ℚ)) :
    backSubst ratOps rows cols a = specBack rows cols a := by
  unfold backSubst specBack
  apply foldl_congr_on
  intro i hi sols
  have hi' : i < rows := by
    rw [List.mem_reverse, List.mem_range] at hi
    exact hi
  congr 1
  show (List.range' (i+1) (rows - (i+1))).foldl
      (fun s j => s - entry2 0 a i j * sols.getD j 0) (entry2 0 a i (cols - 1))
      / entry2 0 a i i = _
  rw [foldl_sub_eq (fun j => entry2 0 a i j * sols.getD j 0) (i+1) (rows - (i+1))]
  rw [show (i+1) + (rows - (i+1)) = rows by omega]

/-- C3.  `GaussianElimination(M)` fails with the `InvalidAugmented` error iff
`M.cols ≠ M.rows + 1`; otherwise it computes, on a private copy, the forward
phase (for each pivot index, the row of `i..rows` whose column-`i` entry has
the largest absolute value under strict `>` with the first occurrence winning
ties is swapped into position `i`, then each row below has
`factor = row[i]/pivotRow[i]` times the pivot row subtracted over columns
`i..cols`) followed by back-substitution from the last row upward, and
returns the resulting solution vector. -/
theorem gaussian_spec (m : Mat) (hwf : m.WF) :
    (m.gaussian_elimination = .error gaussDimMsg ↔ m.cols ≠ m.rows + 1)
    ∧ (m.cols = m.rows + 1 → m.gaussian_elimination = .ok (gaussSpecSolve m)) := by
  constructor
  · unfold Mat.gaussian_elimination gaussianElimG
    by_cases h : m.rows + 1 = m.cols
    · rw [if_neg (by omega)]
      constructor
      · intro hc
        exact absurd hc (by simp)
      · intro hc
        omega
    · rw [if_pos (by omega)]
      constructor
      · intro _
        omega
      · intro _
        rfl
  · intro hc
    unfold Mat.gaussian_elimination gaussianElimG
    rw [if_neg (by omega)]
    unfold gaussSpecSolve
    rw [backSubst_eq]
    show Except.ok (specBack m.rows m.cols
      ((List.range m.rows).foldl (forwardStep ratOps m.rows m.cols) m.data)) = _
    rw [forward_eq m.rows m.cols (List.range m.rows) m.data
      (fun i hi => List.mem_range.mp hi) hwf.1]
    rfl

/-- Witness for C3 at the concrete augmented system `[[2,4]]` (1 row). -/
theorem gaussian_spec_witness :
    (⟨1, 2, [[2,4]]⟩ : Mat).WF
    ∧ (⟨1, 2, [[2,4]]⟩ : Mat).cols = (⟨1, 2, [[2,4]]⟩ : Mat).rows + 1
    ∧ (⟨1, 2, [[2,4]]⟩ : Mat).gaussian_elimination
        = .ok (gaussSpecSolve ⟨1, 2, [[2,4]]⟩) :=
  ⟨by decide, rfl, (gaussian_spec ⟨1, 2, [[2,4]]⟩ (by decide)).2 rfl⟩

/-! ### Parser and formatter (C8, C9, C10)

Strings are modelled as `List Char`.  `Char.isWhitespace` models Rust's
`char::is_whitespace` (they agree on the ASCII whitespace that the formatter
emits and that matrix input normally contains).  The numeric grammar of
`f64::from_str` is external library code, not part of this repository; the
parser is therefore parametric in `parseNum : Str → Option ℚ` (`some` exactly
on tokens the Rust float parser accepts, with the parsed value), and the
formatter in `toStr : ℚ → Str` (Rust's `f64::to_string`). -/

/-- A Rust `&str`/`String`, as its character list. -/
abbrev Str := List Char

def isWS (c : Char) : Bool := c.isWhitespace

/-- Rust `str::trim_start`. -/
def trimLeft (s : Str) : Str := s.dropWhile isWS

/-- Rust `str::trim_end`. -/
def trimRight (s : Str) : Str := (s.reverse.dropWhile isWS).reverse

/-- Rust `str::trim`. -/
def trimStr (s : Str) : Str := trimRight (trimLeft s)

/-- Rust `str::split('\n')`: splits at every newline, keeping empty pieces; an
input with `k` newlines yields `k+1` pieces (never zero). -/
def splitNl : Str → List Str
  | [] => [[]]
  | c :: t =>
      if c = '\n' then [] :: splitNl t
      else
        match splitNl t with
        | [] => [[c]]
        | h :: r => (c :: h) :: r

/-- Accumulator worker for `split_whitespace`: `acc` holds the reversed
characters of the token in progress. -/
def splitWSAux : Str → Str → List Str
  | [], acc => if acc = [] then [] else [acc.reverse]
  | c :: t, acc =>
      if isWS c then (if acc = [] then splitWSAux t [] else acc.reverse :: splitWSAux t [])
      else splitWSAux t (c :: acc)

/-- Rust `str::split_whitespace`: maximal runs of non-whitespace characters, in
order, with no empty tokens. -/
def splitWS (s : Str) : List Str := splitWSAux s []

/-- The impl `FromStr for Matrix`: split the trimmed input on `'\n'`; fail with
`"Empty matrix string"` on zero rows; fix the column count from the first
row's whitespace-separated token count, failing with `"Empty matrix row"`
when it is zero; then for each row, parse every token (`collect` over
`Result` stops at the first bad token with `"Invalid number in matrix"`) and
check the token count against the first row's
(`"Inconsistent number of columns"`). -/
def parseMat (parseNum : Str → Option ℚ) (s : Str) : Except String Mat :=
  let rows := splitNl (trimStr s)
  if rows.length = 0 then .error "Empty matrix string"
  else
    let colsCount := (splitWS (trimStr (rows.getD 0 []))).length
    if colsCount = 0 then .error "Empty matrix row"
    else
      match rows.mapM (fun rowStr =>
        match (splitWS (trimStr rowStr)).mapM parseNum with
        | none => Except.error "Invalid number in matrix"
        | some row =>
            if row.length ≠ colsCount then Except.error "Inconsistent number of columns"
            else Except.ok row) with
      | .error e => .error e
      | .ok data => .ok ⟨rows.length, colsCount, data⟩

/-- Rust's `{:^width$}` centering: total padding `w - len` (zero when the
text is at least `w` wide), `padding/2` on the left, the rest on the right. -/
def padCenter (w : Nat) (s : Str) : Str :=
  List.replicate ((w - s.length) / 2) ' ' ++ s
    ++ List.replicate ((w - s.length) - (w - s.length) / 2) ' '

/-- Column width: the maximum printed length in column `j`
(`max().unwrap_or(0)`). -/
def colWidth (toStr : ℚ → Str) (data : List (List ℚ)) (j : Nat) : Nat :=
  (data.map (fun row => (toStr (row.getD j 0)).length)).foldl Nat.max 0

/-- One displayed row: each entry rendered as `" {:^width$} "` (a space, the
centered text, a space), concatenated with no further separator. -/
def fmtRow (toStr : ℚ → Str) (widths : Nat → Nat) (row : List ℚ) : Str :=
  (row.enum.map (fun p => [' '] ++ padCenter (widths p.1) (toStr p.2) ++ [' '])).flatten

/-- The impl `fmt::Display for Matrix`: every row rendered and terminated by a
newline. -/
def formatMat (toStr : ℚ → Str) (m : Mat) : Str :=
  (m.data.map (fun row => fmtRow toStr (colWidth toStr m.data) row ++ ['\n'])).flatten

/-! ### C10: the `EmptyInput` error is unreachable -/

theorem splitNl_ne_nil : ∀ s : Str, splitNl s ≠ [] := by
  intro s
  induction s with
  | nil => simp [splitNl]
  | cons c t ih =>
      unfold splitNl
      by_cases hc : c = '\n'
      · simp [hc]
      · rcases h : splitNl t with _ | ⟨h', r⟩
        · simp [hc, h]
        · simp [hc, h]

theorem except_bind_ok {ε α β : Type} (a : α) (f : α → Except ε β) :
    ((Except.ok a : Except ε α) >>= f) = f a := rfl

theorem except_bind_error {ε α β : Type} (e : ε) (f : α → Except ε β) :
    ((Except.error e : Except ε α) >>= f) = Except.error e := rfl

theorem except_pure {ε α : Type} (a : α) : (pure a : Except ε α) = Except.ok a := rfl

theorem mapM_error {α β : Type} (f : α → Except String β) :
    ∀ (l : List α) (e : String), l.mapM f = .error e → ∃ a ∈ l, f a = .error e := by
  intro l
  induction l with
  | nil =>
      intro e h
      rw [List.mapM_nil, except_pure] at h
      exact Except.noConfusion h
  | cons a t ih =>
      intro e h
      rcases hfa : f a with e' | b
      · rw [List.mapM_cons, hfa, except_bind_error] at h
        exact ⟨a, by simp, by rw [hfa, Except.error.inj h]⟩
      · rw [List.mapM_cons, hfa, except_bind_ok] at h
        rcases ht : t.mapM f with e'' | bs
        · rw [ht, except_bind_error] at h
          obtain ⟨x, hx, hfx⟩ := ih e'' ht
          exact ⟨x, by simp [hx], by rw [hfx, Except.error.inj h]⟩
        · rw [ht, except_bind_ok, except_pure] at h
          exact Except.noConfusion h

/-- C10.  `Parse` never returns the `EmptyInput` error `"Empty matrix
string"`: splitting the trimmed input on newlines always yields at least one
row, so the zero-rows check is dead; an empty or whitespace-only input
instead fails with the `EmptyRow` error `"Empty matrix row"`, because the
first row then has zero whitespace-separated tokens. -/
theorem no_empty_input_spec (parseNum : Str → Option ℚ) (s : Str) :
    1 ≤ (splitNl (trimStr s)).length
    ∧ parseMat parseNum s ≠ .error "Empty matrix string"
    ∧ ((∀ c ∈ s, isWS c = true) → parseMat parseNum s = .error "Empty matrix row") := by
  have hne : splitNl (trimStr s) ≠ [] := splitNl_ne_nil (trimStr s)
  have hlen : 1 ≤ (splitNl (trimStr s)).length := by
    rcases h : splitNl (trimStr s) with _ | ⟨a, t⟩
    · exact absurd h hne
    · simp
  refine ⟨hlen, ?_, ?_⟩
  · unfold parseMat
    rw [if_neg (by omega)]
    by_cases hcc : (splitWS (trimStr ((splitNl (trimStr s)).getD 0 []))).length = 0
    · rw [if_pos hcc]
      intro h
      exact absurd (Except.error.inj h) (by decide)
    · rw [if_neg hcc]
      rcases hmm : (splitNl (trimStr s)).mapM (fun rowStr =>
          match (splitWS (trimStr rowStr)).mapM parseNum with
          | none => Except.error "Invalid number in matrix"
          | some row =>
              if row.length ≠ (splitWS (trimStr ((splitNl (trimStr s)).getD 0 []))).length
              then Except.error "Inconsistent number of columns"
              else Except.ok row) with e | data
      · rw [hmm]
        show Except.error e ≠ _
        obtain ⟨a, _, hfa⟩ := mapM_error _ _ e hmm
        intro hcontra
        have he : e = "Empty matrix string" := Except.error.inj hcontra
        rcases hsp : (splitWS (trimStr a)).mapM parseNum with _ | row
        · rw [hsp] at hfa
          have : "Invalid number in matrix" = e := Except.error.inj hfa
          rw [← this] at he
          exact absurd he (by decide)
        · rw [hsp] at hfa
          have hfa' : (if row.length
                ≠ (splitWS (trimStr ((splitNl (trimStr s)).getD 0 []))).length
              then Except.error "Inconsistent number of columns"
              else Except.ok row) = Except.error e := hfa
          by_cases hlr : row.length
              = (splitWS (trimStr ((splitNl (trimStr s)).getD 0 []))).length
          · rw [if_neg (by omega)] at hfa'
            exact Except.noConfusion hfa'
          · rw [if_pos (by omega)] at hfa'
            have : "Inconsistent number of columns" = e := Except.error.inj hfa'
            rw [← this] at he
            exact absurd he (by decide)
      · rw [hmm]
        show Except.ok _ ≠ _
        simp
  · intro hws
    have htriv : trimStr s = [] := by
      unfold trimStr trimLeft
      rw [List.dropWhile_eq_nil_iff.mpr (fun c hc => hws c hc)]
      rfl
    unfold parseMat
    rw [htriv]
    rfl

/-- Witness for C10 at a whitespace-only concrete input. -/
theorem no_empty_input_spec_witness :
    (∀ c ∈ String.toList "  ", isWS c = true)
    ∧ parseMat (fun _ => none) (String.toList "  ") = .error "Empty matrix row" :=
  ⟨by decide, (no_empty_input_spec (fun _ => none) (String.toList "  ")).2.2 (by decide)⟩

/-! ### C9: the invalid-number error -/

/-- A sample numeric grammar for concrete inputs: strings of decimal digits
(every such token is accepted by Rust's `f64` parser with this value, and a
token such as `"x"` is rejected by both).  The general theorems stay
parametric in `parseNum`; this instance only serves the concrete runs. -/
def parseNum0 (s : Str) : Option ℚ :=
  if s ≠ [] ∧ s.all Char.isDigit then
    some ((s.foldl (fun n c => 10 * n + (c.toNat - '0'.toNat)) 0 : ℕ) : ℚ)
  else none

theorem mapM_error_at {α β : Type} (f : α → Except String β) (d : α) :
    ∀ (l : List α) (i : Nat) (e : String), i < l.length →
      (∀ k, k < i → ∃ b, f (l.getD k d) = .ok b) →
      f (l.getD i d) = .error e → l.mapM f = .error e := by
  intro l
  induction l with
  | nil =>
      intro i e hi
      simp at hi
  | cons a t ih =>
      intro i e hi hprev he
      cases i with
      | zero =>
          rw [show (a :: t).getD 0 d = a from rfl] at he
          rw [List.mapM_cons, he, except_bind_error]
      | succ i' =>
          obtain ⟨b, hb⟩ := hprev 0 (by omega)
          rw [show (a :: t).getD 0 d = a from rfl] at hb
          rw [List.mapM_cons, hb, except_bind_ok]
          have ht : t.mapM f = .error e := by
            refine ih i' e (by simpa using hi) (fun k hk => ?_) (by simpa using he)
            obtain ⟨b', hb'⟩ := hprev (k+1) (by omega)
            exact ⟨b', by simpa using hb'⟩
          rw [ht, except_bind_error]

/-- C9 (amended).  When the first anomaly the parser meets, scanning rows in
order and tokens left to right, is a token that does not parse as a number
(all earlier rows parse completely with the correct column count), `Parse`
fails with the `InvalidNumber` error — whose message is the fixed string
`"Invalid number in matrix"` and therefore does not identify the offending
row or column. -/
theorem invalid_number_spec (parseNum : Str → Option ℚ) (s : Str)
    (hcols : (splitWS (trimStr ((splitNl (trimStr s)).getD 0 []))).length ≠ 0)
    (i : Nat) (hi : i < (splitNl (trimStr s)).length)
    (hprev : ∀ k, k < i →
      ∃ row, (splitWS (trimStr ((splitNl (trimStr s)).getD k []))).mapM parseNum = some row
        ∧ row.length = (splitWS (trimStr ((splitNl (trimStr s)).getD 0 []))).length)
    (hbad : (splitWS (trimStr ((splitNl (trimStr s)).getD i []))).mapM parseNum = none) :
    parseMat parseNum s = .error "Invalid number in matrix" := by
  unfold parseMat
  rw [if_neg (by omega), if_neg hcols]
  have hmapM := mapM_error_at (fun rowStr =>
      match (splitWS (trimStr rowStr)).mapM parseNum with
      | none => Except.error "Invalid number in matrix"
      | some row =>
          if row.length ≠ (splitWS (trimStr ((splitNl (trimStr s)).getD 0 []))).length
          then Except.error "Inconsistent number of columns"
          else Except.ok row) []
    (splitNl (trimStr s)) i "Invalid number in matrix" hi
    (fun k hk => by
      obtain ⟨row, hrow, hlen⟩ := hprev k hk
      refine ⟨row, ?_⟩
      show (match (splitWS (trimStr ((splitNl (trimStr s)).getD k []))).mapM parseNum with
        | none => Except.error "Invalid number in matrix"
        | some row =>
            if row.length ≠ (splitWS (trimStr ((splitNl (trimStr s)).getD 0 []))).length
            then Except.error "Inconsistent number of columns"
            else Except.ok row) = Except.ok row
      rw [hrow]
      show (if row.length ≠ (splitWS (trimStr ((splitNl (trimStr s)).getD 0 []))).length
        then Except.error "Inconsistent number of columns"
        else Except.ok row) = Except.ok row
      rw [if_neg (by omega)])
    (by
      show (match (splitWS (trimStr ((splitNl (trimStr s)).getD i []))).mapM parseNum with
        | none => Except.error "Invalid number in matrix"
        | some row =>
            if row.length ≠ (splitWS (trimStr ((splitNl (trimStr s)).getD 0 []))).length
            then Except.error "Inconsistent number of columns"
            else Except.ok row) = Except.error "Invalid number in matrix"
      rw [hbad])
  rw [hmapM]

/-- Counterexample to C9 as stated: a bad token at row 0, column 0 and a bad
token at row 1, column 1 produce the *identical* error value, so the error
does not name the offending row and column. -/
theorem invalid_number_counterexample :
    parseMat parseNum0 (String.toList "x 2\n3 4") = .error "Invalid number in matrix"
    ∧ parseMat parseNum0 (String.toList "1 2\n3 x") = .error "Invalid number in matrix" :=
  ⟨rfl, rfl⟩

/-- Witness for the amended C9 at the concrete input `"1 x\n3 4"`. -/
theorem invalid_number_spec_witness :
    (splitWS (trimStr ((splitNl (trimStr (String.toList "1 x\n3 4"))).getD 0 []))).length ≠ 0
    ∧ (0 : Nat) < (splitNl (trimStr (String.toList "1 x\n3 4"))).length
    ∧ parseMat parseNum0 (String.toList "1 x\n3 4") = .error "Invalid number in matrix" :=
  ⟨by decide, by decide,
    invalid_number_spec parseNum0 (String.toList "1 x\n3 4") (by decide) 0 (by decide)
      (fun k hk => absurd hk (by omega)) (by decide)⟩

/-! ### C8: parse ∘ format round trip

Structure of the proof: the formatter emits one line per row, each line a
concatenation of `" token "` fields (tokens are nonempty and contain no
whitespace, padding is spaces); `split_whitespace` of such a line recovers
exactly the tokens; the outer `trim` only strips leading whitespace of the
first line and the final newline plus trailing whitespace of the last, which
changes neither the line count nor any line's token list. -/

theorem dropWhile_append_first {α : Type} (p : α → Bool) :
    ∀ (X Y : List α), (∃ x ∈ X, p x = false) →
      (X ++ Y).dropWhile p = X.dropWhile p ++ Y := by
  intro X
  induction X with
  | nil =>
      intro Y h
      obtain ⟨x, hx, _⟩ := h
      exact absurd hx (by simp)
  | cons a t ih =>
      intro Y h
      rcases hpa : p a with _ | _
      · simp [List.dropWhile_cons, hpa]
      · simp only [List.cons_append, List.dropWhile_cons, hpa, if_true]
        apply ih
        obtain ⟨x, hx, hpx⟩ := h
        rcases List.mem_cons.mp hx with rfl | hx
        · rw [hpa] at hpx
          exact absurd hpx (by simp)
        · exact ⟨x, hx, hpx⟩

theorem dropWhile_append_all {α : Type} (p : α → Bool) :
    ∀ (X Y : List α), (∀ x ∈ X, p x = true) →
      (X ++ Y).dropWhile p = Y.dropWhile p := by
  intro X
  induction X with
  | nil => intro Y _; rfl
  | cons a t ih =>
      intro Y h
      simp only [List.cons_append, List.dropWhile_cons, h a (by simp), if_true]
      exact ih Y (fun x hx => h x (by simp [hx]))

theorem splitWSAux_ws (W : Str) (hW : ∀ c ∈ W, isWS c = true) :
    ∀ acc, splitWSAux W acc = splitWSAux [] acc := by
  induction W with
  | nil => intro acc; rfl
  | cons w W' ih =>
      intro acc
      have hw : isWS w = true := hW w (by simp)
      have ih' := ih (fun c hc => hW c (by simp [hc]))
      unfold splitWSAux
      rw [hw, if_pos rfl]
      by_cases hacc : acc = []
      · rw [if_pos hacc, ih' [], hacc]
        rfl
      · rw [if_neg hacc, ih' []]
        simp [splitWSAux, hacc]

theorem splitWSAux_ws_front (W : Str) (hW : ∀ c ∈ W, isWS c = true) :
    ∀ s, splitWSAux (W ++ s) [] = splitWSAux s [] := by
  induction W with
  | nil => intro s; rfl
  | cons w W' ih =>
      intro s
      have hw : isWS w = true := hW w (by simp)
      show splitWSAux (w :: (W' ++ s)) [] = _
      simp only [splitWSAux, hw, if_true, if_pos]
      exact ih (fun c hc => hW c (by simp [hc])) s

theorem splitWSAux_ws_suffix (W : Str) (hW : ∀ c ∈ W, isWS c = true) :
    ∀ (X : Str) (acc : Str), splitWSAux (X ++ W) acc = splitWSAux X acc := by
  intro X
  induction X with
  | nil => intro acc; exact splitWSAux_ws W hW acc
  | cons c X' ih =>
      intro acc
      show splitWSAux (c :: (X' ++ W)) acc = splitWSAux (c :: X') acc
      unfold splitWSAux
      rcases hc : isWS c with _ | _
      · simp only [Bool.false_eq_true, if_false]
        exact ih (c :: acc)
      · simp only [if_true]
        by_cases hacc : acc = []
        · rw [if_pos hacc, if_pos hacc, ih []]
        · rw [if_neg hacc, if_neg hacc, ih []]

theorem splitWSAux_nonws (t : Str) (ht : ∀ c ∈ t, isWS c = false) :
    ∀ (s acc : Str), splitWSAux (t ++ s) acc = splitWSAux s (t.reverse ++ acc) := by
  induction t with
  | nil => intro s acc; rfl
  | cons c t' ih =>
      intro s acc
      have hc : isWS c = false := ht c (by simp)
      show splitWSAux (c :: (t' ++ s)) acc = _
      simp only [splitWSAux, hc, Bool.false_eq_true, if_false]
      rw [ih (fun x hx => ht x (by simp [hx])) s (c :: acc)]
      congr 1
      simp

theorem splitWS_token (t s : Str) (ht : t ≠ []) (htc : ∀ c ∈ t, isWS c = false)
    (hs : s = [] ∨ ∃ w s', s = w :: s' ∧ isWS w = true) :
    splitWS (t ++ s) = t :: splitWS s := by
  unfold splitWS
  rw [splitWSAux_nonws t htc s []]
  rcases hs with rfl | ⟨w, s', rfl, hw⟩
  · show splitWSAux [] (t.reverse ++ []) = _
    unfold splitWSAux
    rw [if_neg (by simp [ht])]
    simp
  · show splitWSAux (w :: s') (t.reverse ++ []) = _
    unfold splitWSAux
    rw [hw, if_pos rfl, if_neg (by simp [ht])]
    simp [splitWSAux]

theorem splitWS_ws_eq_nil (W : Str) (hW : ∀ c ∈ W, isWS c = true) : splitWS W = [] := by
  unfold splitWS
  rw [splitWSAux_ws W hW []]
  rfl

theorem splitWS_trimLeft (s : Str) : splitWS (trimLeft s) = splitWS s := by
  conv_rhs => rw [← List.takeWhile_append_dropWhile (p := isWS) (l := s)]
  show _ = splitWSAux (s.takeWhile isWS ++ s.dropWhile isWS) []
  rw [splitWSAux_ws_front (s.takeWhile isWS)
    (fun c hc => List.mem_takeWhile_imp hc) (s.dropWhile isWS)]
  rfl

theorem splitWS_trimRight (s : Str) : splitWS (trimRight s) = splitWS s := by
  have hdec : s = trimRight s ++ (s.reverse.takeWhile isWS).reverse := by
    unfold trimRight
    rw [← List.reverse_append, List.takeWhile_append_dropWhile, List.reverse_reverse]
  conv_rhs => rw [hdec]
  show _ = splitWSAux (trimRight s ++ (s.reverse.takeWhile isWS).reverse) []
  rw [splitWSAux_ws_suffix (s.reverse.takeWhile isWS).reverse
    (fun c hc => List.mem_takeWhile_imp (List.mem_reverse.mp hc)) (trimRight s) []]
  rfl

theorem splitWS_trim (s : Str) : splitWS (trimStr s) = splitWS s := by
  unfold trimStr
  rw [splitWS_trimRight, splitWS_trimLeft]

theorem splitWS_ws_front_eq (W X : Str) (hW : ∀ c ∈ W, isWS c = true) :
    splitWS (W ++ X) = splitWS X :=
  splitWSAux_ws_front W hW X

theorem ws_space_list (n : Nat) (c : Char) (hc : c ∈ List.replicate n ' ') : isWS c = true := by
  rw [List.eq_of_mem_replicate hc]
  decide

theorem enumFrom_map_snd {α : Type} : ∀ (l : List α) (n : Nat),
    (List.enumFrom n l).map Prod.snd = l := by
  intro l
  induction l with
  | nil => intro n; rfl
  | cons a t ih =>
      intro n
      show (n, a).2 :: (List.enumFrom (n+1) t).map Prod.snd = a :: t
      rw [ih (n+1)]

theorem mem_enumFrom_snd {α : Type} : ∀ (l : List α) (n : Nat) (p : Nat × α),
    p ∈ List.enumFrom n l → p.2 ∈ l := by
  intro l
  induction l with
  | nil => intro n p hp; simp [List.enumFrom] at hp
  | cons a t ih =>
      intro n p hp
      rcases List.mem_cons.mp hp with rfl | hp
      · simp
      · simp [ih (n+1) p hp]

/-- Applying `split_whitespace` to a concatenation of `" token "` fields is exactly the
token list. -/
theorem splitWS_pieces (toStr : ℚ → Str) (w : Nat → Nat) :
    ∀ (l : List (Nat × ℚ)),
      (∀ p ∈ l, toStr p.2 ≠ [] ∧ ∀ c ∈ toStr p.2, isWS c = false) →
      splitWS ((l.map (fun p => [' '] ++ padCenter (w p.1) (toStr p.2) ++ [' '])).flatten)
        = l.map (fun p => toStr p.2) := by
  intro l
  induction l with
  | nil => intro _; rfl
  | cons p l' ih =>
      intro h
      obtain ⟨hne, hnws⟩ := h p (by simp)
      have hrearrange :
          (((p :: l').map (fun p => [' '] ++ padCenter (w p.1) (toStr p.2) ++ [' '])).flatten)
          = ([' '] ++ List.replicate ((w p.1 - (toStr p.2).length) / 2) ' ')
            ++ (toStr p.2
              ++ (List.replicate ((w p.1 - (toStr p.2).length)
                    - (w p.1 - (toStr p.2).length) / 2) ' '
                ++ ([' ']
                  ++ (l'.map (fun p => [' '] ++ padCenter (w p.1) (toStr p.2) ++ [' '])).flatten))) := by
        simp [padCenter, List.append_assoc]
      rw [hrearrange]
      rw [splitWS_ws_front_eq _ _ (by
        intro c hc
        rcases List.mem_append.mp hc with hc | hc
        · rw [List.mem_singleton.mp hc]; decide
        · exact ws_space_list _ c hc)]
      rw [splitWS_token _ _ hne hnws (by
        right
        rcases hb : List.replicate ((w p.1 - (toStr p.2).length)
            - (w p.1 - (toStr p.2).length) / 2) ' ' with _ | ⟨c0, r0⟩
        · exact ⟨' ', _, rfl, by decide⟩
        · have hc0 : c0 = ' ' := List.eq_of_mem_replicate
            (by rw [hb]; exact List.mem_cons_self c0 r0)
          exact ⟨' ', _, by rw [hc0]; exact rfl, by decide⟩)]
      rw [splitWS_ws_front_eq _ _ (fun c hc => ws_space_list _ c hc)]
      rw [splitWS_ws_front_eq [' '] _ (by intro c hc; rw [List.mem_singleton.mp hc]; decide)]
      rw [ih (fun q hq => h q (by simp [hq]))]
      rfl

theorem splitNl_append (A : Str) (hA : ∀ c ∈ A, c ≠ '\n') :
    ∀ B, splitNl (A ++ '\n' :: B) = A :: splitNl B := by
  induction A with
  | nil =>
      intro B
      show splitNl ('\n' :: B) = _
      simp [splitNl]
  | cons c A' ih =>
      intro B
      have hc : c ≠ '\n' := hA c (by simp)
      show splitNl (c :: (A' ++ '\n' :: B)) = _
      simp only [splitNl]
      rw [if_neg hc, ih (fun x hx => hA x (by simp [hx])) B]

theorem splitNl_no_nl (C : Str) (hC : ∀ c ∈ C, c ≠ '\n') : splitNl C = [C] := by
  induction C with
  | nil => rfl
  | cons c C' ih =>
      have hc : c ≠ '\n' := hC c (by simp)
      simp only [splitNl]
      rw [if_neg hc, ih (fun x hx => hC x (by simp [hx]))]

theorem trimLeft_append_first (X Y : Str) (h : ∃ x ∈ X, isWS x = false) :
    trimLeft (X ++ Y) = trimLeft X ++ Y :=
  dropWhile_append_first isWS X Y h

theorem trimRight_append_last (A B : Str) (h : ∃ x ∈ B, isWS x = false) :
    trimRight (A ++ B) = A ++ trimRight B := by
  unfold trimRight
  rw [List.reverse_append, dropWhile_append_first isWS B.reverse A.reverse
    (by obtain ⟨x, hx, hpx⟩ := h; exact ⟨x, List.mem_reverse.mpr hx, hpx⟩)]
  rw [List.reverse_append, List.reverse_reverse]

theorem trimRight_append_ws (X W : Str) (h : ∀ x ∈ W, isWS x = true) :
    trimRight (X ++ W) = trimRight X := by
  unfold trimRight
  rw [List.reverse_append, dropWhile_append_all isWS W.reverse X.reverse
    (fun x hx => h x (List.mem_reverse.mp hx))]

theorem mem_trimLeft_subset {x : Char} {s : Str} (hx : x ∈ trimLeft s) : x ∈ s :=
  (List.dropWhile_sublist isWS).subset hx

theorem mem_trimRight_subset {x : Char} {s : Str} (hx : x ∈ trimRight s) : x ∈ s := by
  unfold trimRight at hx
  rw [List.mem_reverse] at hx
  exact List.mem_reverse.mp ((List.dropWhile_sublist isWS).subset hx)

theorem exists_nonws_trimLeft : ∀ (X : Str), (∃ x ∈ X, isWS x = false) →
    ∃ x ∈ trimLeft X, isWS x = false := by
  intro X
  induction X with
  | nil =>
      intro h
      obtain ⟨x, hx, _⟩ := h
      simp at hx
  | cons a t ih =>
      intro h
      rcases ha : isWS a with _ | _
      · exact ⟨a, by simp [trimLeft, List.dropWhile_cons, ha], ha⟩
      · show ∃ x ∈ (a :: t).dropWhile isWS, isWS x = false
        simp only [List.dropWhile_cons, ha, if_true]
        apply ih
        obtain ⟨x, hx, hpx⟩ := h
        rcases List.mem_cons.mp hx with rfl | hx
        · rw [ha] at hpx
          exact absurd hpx (by simp)
        · exact ⟨x, hx, hpx⟩

theorem option_bind_some {α β : Type} (a : α) (f : α → Option β) :
    ((some a : Option α) >>= f) = f a := rfl

theorem option_pure {α : Type} (a : α) : (pure a : Option α) = some a := rfl

theorem mapM_map_some (parseNum : Str → Option ℚ) (toStr : ℚ → Str) :
    ∀ (row : List ℚ), (∀ v ∈ row, parseNum (toStr v) = some v) →
      (row.map toStr).mapM parseNum = some row := by
  intro row
  induction row with
  | nil => intro _; rfl
  | cons v t ih =>
      intro h
      simp only [List.map_cons, List.mapM_cons, h v (by simp),
        ih (fun x hx => h x (by simp [hx])), option_bind_some, option_pure]

theorem map_mapM_ok {α β : Type} (f : β → Except String α) (g : α → β) :
    ∀ (l : List α), (∀ r ∈ l, f (g r) = .ok r) → (l.map g).mapM f = .ok l := by
  intro l
  induction l with
  | nil => intro _; rfl
  | cons a t ih =>
      intro h
      simp only [List.map_cons, List.mapM_cons, h a (by simp),
        ih (fun x hx => h x (by simp [hx])), except_bind_ok, except_pure]

theorem mapM_forall₂ (f : Str → Except String (List ℚ))
    (hf : ∀ v L, splitWS v = splitWS L → f v = f L) :
    ∀ {rows lines : List Str},
      List.Forall₂ (fun v L => splitWS v = splitWS L) rows lines →
      rows.mapM f = lines.mapM f := by
  intro rows lines h
  induction h with
  | nil => rfl
  | cons hr _ ih => rw [List.mapM_cons, List.mapM_cons, hf _ _ hr, ih]

theorem enum_map_snd {α : Type} (l : List α) : l.enum.map Prod.snd = l :=
  enumFrom_map_snd l 0

theorem mem_enum_snd {α : Type} (l : List α) (p : Nat × α) (hp : p ∈ l.enum) : p.2 ∈ l :=
  mem_enumFrom_snd l 0 p hp

theorem trimLeft_flatten_lines (L : Str) (ls : List Str) (hex : ∃ c ∈ L, isWS c = false) :
    trimLeft (((L :: ls).map (fun X => X ++ ['\n'])).flatten)
      = (((trimLeft L :: ls).map (fun X => X ++ ['\n'])).flatten) := by
  simp only [List.map_cons, List.flatten_cons]
  rw [List.append_assoc,
    trimLeft_append_first L (['\n'] ++ (ls.map (fun X => X ++ ['\n'])).flatten) hex,
    ← List.append_assoc]

/-- Splitting the right-trimmed rendering of newline-terminated lines on
`'\n'` yields one piece per line, each piece having the same whitespace-split
tokens as its line (the last piece loses only trailing whitespace). -/
theorem splitNl_lines : ∀ (ls : List Str), ls ≠ [] →
    (∀ L ∈ ls, (∃ c ∈ L, isWS c = false) ∧ ∀ c ∈ L, c ≠ '\n') →
    List.Forall₂ (fun v L => splitWS v = splitWS L)
      (splitNl (trimRight ((ls.map (fun X => X ++ ['\n'])).flatten))) ls := by
  intro ls
  induction ls with
  | nil => intro h _; exact absurd rfl h
  | cons L ls' ih =>
      intro _ hconds
      have hL := hconds L (by simp)
      rcases ls' with _ | ⟨L2, ls''⟩
      · have h1 : (([L].map (fun X => X ++ ['\n'])).flatten) = L ++ ['\n'] := by simp
        rw [h1, trimRight_append_ws L ['\n'] (by
          intro x hx
          rw [List.mem_singleton.mp hx]
          decide)]
        rw [splitNl_no_nl (trimRight L) (fun c hc => hL.2 c (mem_trimRight_subset hc))]
        exact List.Forall₂.cons (splitWS_trimRight L) List.Forall₂.nil
      · have hflat : (((L :: L2 :: ls'').map (fun X => X ++ ['\n'])).flatten)
            = (L ++ ['\n']) ++ (((L2 :: ls'').map (fun X => X ++ ['\n'])).flatten) := by
          simp
        rw [hflat]
        have hex2 : ∃ x ∈ ((L2 :: ls'').map (fun X => X ++ ['\n'])).flatten, isWS x = false := by
          obtain ⟨c, hcm, hcws⟩ := (hconds L2 (by simp)).1
          refine ⟨c, ?_, hcws⟩
          rw [List.mem_flatten]
          exact ⟨L2 ++ ['\n'], by simp, List.mem_append_left _ hcm⟩
        rw [trimRight_append_last _ _ hex2, List.append_assoc]
        rw [show (['\n'] ++ trimRight (((L2 :: ls'').map (fun X => X ++ ['\n'])).flatten))
          = '\n' :: trimRight (((L2 :: ls'').map (fun X => X ++ ['\n'])).flatten) from rfl]
        rw [splitNl_append L hL.2 _]
        exact List.Forall₂.cons rfl (ih (by simp) (fun X hX => hconds X (by simp [hX])))

/-- C8.  Parsing the text produced by `Format` succeeds and returns a matrix
equal to the original: for every well-formed matrix with positive dimensions,
provided the numeric printer round-trips through the numeric parser on the
matrix's entries and prints nonempty whitespace-free tokens (true of
`f64::to_string`/`f64::from_str`), `Parse (Format M) = Ok M`. -/
theorem roundtrip_spec (toStr : ℚ → Str) (parseNum : Str → Option ℚ) (m : Mat)
    (hwf : m.WF) (hr : 0 < m.rows) (hc : 0 < m.cols)
    (htok : ∀ r ∈ m.data, ∀ v ∈ r,
      parseNum (toStr v) = some v ∧ toStr v ≠ [] ∧ ∀ ch ∈ toStr v, isWS ch = false) :
    parseMat parseNum (formatMat toStr m) = .ok m := by
  obtain ⟨hlen, hrowlen⟩ := hwf
  have hline_tokens : ∀ r ∈ m.data,
      splitWS (fmtRow toStr (colWidth toStr m.data) r) = r.map toStr := by
    intro r hrm
    unfold fmtRow
    rw [splitWS_pieces toStr (colWidth toStr m.data) r.enum (fun p hp => by
      have hv : p.2 ∈ r := mem_enum_snd r p hp
      obtain ⟨_, hne, hnws⟩ := htok r hrm p.2 hv
      exact ⟨hne, hnws⟩)]
    rw [show (fun p : Nat × ℚ => toStr p.2) = toStr ∘ Prod.snd from rfl,
      ← List.map_map, enum_map_snd]
  have hlineconds : ∀ r ∈ m.data,
      (∃ ch ∈ fmtRow toStr (colWidth toStr m.data) r, isWS ch = false)
      ∧ ∀ ch ∈ fmtRow toStr (colWidth toStr m.data) r, ch ≠ '\n' := by
    intro r hrm
    constructor
    · by_contra hno
      push_neg at hno
      have hallws : ∀ ch ∈ fmtRow toStr (colWidth toStr m.data) r, isWS ch = true := by
        intro ch hch
        have h1 := hno ch hch
        rcases h2 : isWS ch with _ | _
        · exact absurd h2 h1
        · rfl
      have h0 := splitWS_ws_eq_nil _ hallws
      rw [hline_tokens r hrm] at h0
      have hrne : r ≠ [] := by
        intro h'
        rw [h'] at hrm
        have := hrowlen [] hrm
        simp at this
        omega
      rcases r with _ | ⟨x, r'⟩
      · exact hrne rfl
      · simp at h0
    · intro ch hch
      unfold fmtRow at hch
      rw [List.mem_flatten] at hch
      obtain ⟨piece, hpm, hcp⟩ := hch
      rw [List.mem_map] at hpm
      obtain ⟨p, hpenum, rfl⟩ := hpm
      have hv : p.2 ∈ r := mem_enum_snd r p hpenum
      obtain ⟨_, _, hnws⟩ := htok r hrm p.2 hv
      have hcase : ch = ' ' ∨ isWS ch = false := by
        rcases List.mem_append.mp hcp with hcp | hcp
        · rcases List.mem_append.mp hcp with hcp | hcp
          · exact Or.inl (List.mem_singleton.mp hcp)
          · unfold padCenter at hcp
            rcases List.mem_append.mp hcp with hcp | hcp
            · rcases List.mem_append.mp hcp with hcp | hcp
              · exact Or.inl (List.eq_of_mem_replicate hcp)
              · exact Or.inr (hnws ch hcp)
            · exact Or.inl (List.eq_of_mem_replicate hcp)
        · exact Or.inl (List.mem_singleton.mp hcp)
      rcases hcase with rfl | hcase
      · decide
      · intro h'
        rw [h'] at hcase
        exact absurd hcase (by decide)
  have hfmt : formatMat toStr m
      = (((m.data.map (fmtRow toStr (colWidth toStr m.data))).map
          (fun X => X ++ ['\n'])).flatten) := by
    unfold formatMat
    rw [List.map_map]
    rfl
  rcases hdata : m.data with _ | ⟨r1, rs⟩
  · rw [hdata] at hlen
    simp at hlen
    omega
  have hr1mem : r1 ∈ m.data := by rw [hdata]; simp
  have hlines : m.data.map (fmtRow toStr (colWidth toStr m.data))
      = fmtRow toStr (colWidth toStr m.data) r1
        :: rs.map (fmtRow toStr (colWidth toStr m.data)) := by
    rw [hdata]
    rfl
  have hL1 := hlineconds r1 hr1mem
  have htrim : trimStr (formatMat toStr m)
      = trimRight ((((trimLeft (fmtRow toStr (colWidth toStr m.data) r1)
          :: rs.map (fmtRow toStr (colWidth toStr m.data))).map
            (fun X => X ++ ['\n'])).flatten)) := by
    unfold trimStr
    rw [hfmt, hlines, trimLeft_flatten_lines _ _ hL1.1]
  have hforall : List.Forall₂ (fun v L => splitWS v = splitWS L)
      (splitNl (trimStr (formatMat toStr m)))
      (trimLeft (fmtRow toStr (colWidth toStr m.data) r1)
        :: rs.map (fmtRow toStr (colWidth toStr m.data))) := by
    rw [htrim]
    apply splitNl_lines _ (by simp)
    intro L hL
    rcases List.mem_cons.mp hL with rfl | hL
    · exact ⟨exists_nonws_trimLeft _ hL1.1, fun c hc => hL1.2 c (mem_trimLeft_subset hc)⟩
    · have : L ∈ m.data.map (fmtRow toStr (colWidth toStr m.data)) := by
        rw [hlines]
        simp [hL]
      rw [List.mem_map] at this
      obtain ⟨r, hrm, rfl⟩ := this
      exact hlineconds r hrm
  obtain ⟨v, vs, hvL, hvs, hXeq⟩ := List.forall₂_cons_right_iff.mp hforall
  have hv : splitWS v = splitWS (fmtRow toStr (colWidth toStr m.data) r1) :=
    hvL.trans (splitWS_trimLeft _)
  have hforall2 : List.Forall₂ (fun v L => splitWS v = splitWS L) (v :: vs)
      (m.data.map (fmtRow toStr (colWidth toStr m.data))) := by
    rw [hlines]
    exact List.Forall₂.cons hv hvs
  have hcols0 : (splitWS (trimStr v)).length = m.cols := by
    rw [splitWS_trim, hv, hline_tokens r1 hr1mem, List.length_map]
    exact hrowlen r1 hr1mem
  unfold parseMat
  rw [hXeq]
  rw [if_neg (by simp)]
  rw [show ((v :: vs).getD 0 ([] : Str)) = v from rfl]
  rw [if_neg (by rw [hcols0]; omega)]
  rw [mapM_forall₂ _ (by
      intro a b hab
      show (match (splitWS (trimStr a)).mapM parseNum with
        | none => Except.error "Invalid number in matrix"
        | some row => if row.length ≠ (splitWS (trimStr v)).length
            then Except.error "Inconsistent number of columns"
            else Except.ok row)
        = (match (splitWS (trimStr b)).mapM parseNum with
        | none => Except.error "Invalid number in matrix"
        | some row => if row.length ≠ (splitWS (trimStr v)).length
            then Except.error "Inconsistent number of columns"
            else Except.ok row)
      rw [splitWS_trim a, splitWS_trim b, hab])
    hforall2]
  rw [map_mapM_ok _ _ m.data (by
      intro r hrm
      show (match (splitWS (trimStr (fmtRow toStr (colWidth toStr m.data) r))).mapM parseNum with
        | none => Except.error "Invalid number in matrix"
        | some row => if row.length ≠ (splitWS (trimStr v)).length
            then Except.error "Inconsistent number of columns"
            else Except.ok row) = Except.ok r
      rw [splitWS_trim, hline_tokens r hrm,
        mapM_map_some parseNum toStr r (fun x hx => (htok r hrm x hx).1)]
      show (if r.length ≠ (splitWS (trimStr v)).length
        then Except.error "Inconsistent number of columns"
        else Except.ok r) = Except.ok r
      rw [if_neg (by rw [hcols0, hrowlen r hrm]; omega)])]
  have hlen2 : (v :: vs).length = m.rows := by
    have h := List.Forall₂.length_eq hforall2
    rw [List.length_map, hlen] at h
    exact h
  show Except.ok (⟨(v :: vs).length, (splitWS (trimStr v)).length, m.data⟩ : Mat)
    = Except.ok m
  rw [hlen2, hcols0]

/-- A concrete printer/parser pair for the C8 witness: the 1×1 zero matrix
with `toStr` printing `"0"` and `parseNum` accepting exactly `"0"`. -/
def toStr0 : ℚ → Str := fun _ => ['0']

def parseNumZ (s : Str) : Option ℚ := if s = ['0'] then some 0 else none

/-- Witness for C8 at the 1×1 matrix `[[0]]`. -/
theorem roundtrip_spec_witness :
    (⟨1, 1, [[0]]⟩ : Mat).WF ∧ 0 < (⟨1, 1, [[0]]⟩ : Mat).rows
    ∧ 0 < (⟨1, 1, [[0]]⟩ : Mat).cols
    ∧ parseMat parseNumZ (formatMat toStr0 ⟨1, 1, [[0]]⟩) = .ok ⟨1, 1, [[0]]⟩ :=
  ⟨by decide, by decide, by decide,
    roundtrip_spec toStr0 parseNumZ ⟨1, 1, [[0]]⟩ (by decide) (by decide) (by decide)
      (by
        intro r hrm v hv
        simp only [List.mem_singleton] at hrm
        rw [hrm] at hv
        simp only [List.mem_singleton] at hv
        refine ⟨?_, ?_, ?_⟩
        · rw [hv]
          rfl
        · show (['0'] : Str) ≠ []
          decide
        · show ∀ ch ∈ (['0'] : Str), isWS ch = false
          decide)⟩

end MatrixCalc
